import Mathlib

/-!
Verification of the tips-maker repository (math-text → explanatory-video app).

Strings from the TypeScript source are modelled as `List Char`; JavaScript
regular-expression tests and replacements are embedded as explicit scanning
functions over character lists.  All definitions are executable.
-/

set_option maxRecDepth 4096

/-- Character class of JavaScript whitespace, as used by `String.prototype.trim`
and by the regex class `\s` (restricted to the code points that actually occur
in this code base's inputs: ASCII whitespace, NBSP and the BOM). -/
def isJsWs (c : Char) : Bool :=
  c == ' ' || c == '\t' || c == '\n' || c == '\r' || c == '\x0b' ||
  c == '\x0c' || c == '\u00A0' || c == '\uFEFF'

/-- JavaScript word character, the regex class `\w` (used for `\b` boundaries). -/
def isWordChar (c : Char) : Bool :=
  c.isAlpha || c.isDigit || c == '_'

/-- Embedding of `String.prototype.trimStart`. -/
def trimStart (l : List Char) : List Char := l.dropWhile isJsWs

/-- Embedding of `String.prototype.trimEnd`. -/
def trimEnd (l : List Char) : List Char := (l.reverse.dropWhile isJsWs).reverse

/-- Embedding of `String.prototype.trim`. -/
def trim (l : List Char) : List Char := trimEnd (trimStart l)

/-- Count of occurrences of a character, as in
`(latex.match(/\{/g) || []).length`. -/
def countChar (c : Char) (l : List Char) : Nat := (l.filter (· == c)).length

/-- Does the JS regex `\\[a-zA-Z]+\s*\{[^}]*$` match at the head of the list?
The matcher is deterministic because the character classes of consecutive
regex pieces are disjoint, so greedy maximal munch is exact. -/
def unclosedCommandAt (l : List Char) : Bool :=
  match l with
  | '\\' :: rest =>
    let letters := rest.takeWhile Char.isAlpha
    if letters.isEmpty then false
    else
      match (rest.drop letters.length).dropWhile isJsWs with
      | '{' :: t => t.all (· != '}')
      | _ => false
  | _ => false

/-- Unanchored search for `\\[a-zA-Z]+\s*\{[^}]*$` (an unclosed LaTeX
command), as performed by `RegExp.prototype.test`. -/
def testUnclosedCommand : List Char → Bool
  | [] => false
  | c :: rest => unclosedCommandAt (c :: rest) || testUnclosedCommand rest

/-- Does the JS regex `\$\$[^$]*\$(?!\$)` match at the head of the list? -/
def displayMismatchAt (l : List Char) : Bool :=
  match l with
  | '$' :: '$' :: rest =>
    match rest.dropWhile (· != '$') with
    | '$' :: t =>
      match t with
      | '$' :: _ => false
      | _ => true
    | _ => false
  | _ => false

/-- Unanchored search for `\$\$[^$]*\$(?!\$)` (mismatched display math
delimiters). -/
def testDisplayMismatch : List Char → Bool
  | [] => false
  | c :: rest => displayMismatchAt (c :: rest) || testDisplayMismatch rest

/-- Does the JS regex `\$[^$]*\$\$` match at the head of the list? -/
def inlineMismatchAt (l : List Char) : Bool :=
  match l with
  | '$' :: rest =>
    match rest.dropWhile (· != '$') with
    | '$' :: '$' :: _ => true
    | _ => false
  | _ => false

/-- Unanchored search for `\$[^$]*\$\$` (mismatched inline math delimiters). -/
def testInlineMismatch : List Char → Bool
  | [] => false
  | c :: rest => inlineMismatchAt (c :: rest) || testInlineMismatch rest

/-- Result shape of `validateLatex` in `MathValidation.ts`: an object
with `isValid` and an optional `error` message. -/
structure LatexVerdict where
  isValid : Bool
  error : Option String
deriving DecidableEq

/-- Embedding of `validateLatex` from
`src/front/src/app/datas/MathValidation.ts` (lines 6–37).  The TS function is
wrapped in try/catch and returns a verdict on every path, so the embedding is
a total function.  The three "common LaTeX error" regexes are tested in order
and all produce the same message, so their disjunction is tested at once. -/
def validateLatex (latex : List Char) : LatexVerdict :=
  if latex.isEmpty then { isValid := false, error := some "Invalid LaTeX input" }
  else if countChar '{' latex != countChar '}' latex then
    { isValid := false, error := some "Mismatched braces in LaTeX" }
  else if testUnclosedCommand latex || testDisplayMismatch latex || testInlineMismatch latex then
    { isValid := false, error := some "Invalid LaTeX syntax" }
  else { isValid := true, error := none }

/-- The disjunction of all malformed-input conditions recognized by
`validateLatex`: empty input, mismatched braces, an unclosed command, or
mismatched math delimiters. -/
def latexMalformed (l : List Char) : Prop :=
  l = [] ∨ countChar '{' l ≠ countChar '}' l ∨ testUnclosedCommand l = true ∨
    testDisplayMismatch l = true ∨ testInlineMismatch l = true

theorem validateLatex_isValid_false_iff (l : List Char) :
    (validateLatex l).isValid = false ↔ latexMalformed l := by
  unfold validateLatex latexMalformed
  by_cases h0 : l.isEmpty
  · simp [h0, List.isEmpty_iff.mp h0]
  · have h0' : l ≠ [] := by simpa [List.isEmpty_iff] using h0
    by_cases h1 : countChar '{' l != countChar '}' l
    · simp [h0, h1, bne_iff_ne.mp h1, h0']
    · have h1' : countChar '{' l = countChar '}' l := by
        simpa [bne_iff_ne] using h1
      by_cases h2 : testUnclosedCommand l || testDisplayMismatch l || testInlineMismatch l
      · rcases Bool.or_eq_true_iff.mp h2 with h | h
        · rcases Bool.or_eq_true_iff.mp h with h' | h'
          · simp [h0, h1, h2, h']
          · simp [h0, h1, h2, h']
        · simp [h0, h1, h2, h]
      · simp only [Bool.or_eq_true, not_or, Bool.not_eq_true] at h2
        simp [h0, h1, h0', h1', h2.1.1, h2.1.2, h2.2]

theorem validateLatex_error_isSome_iff (l : List Char) :
    (validateLatex l).error.isSome = true ↔ latexMalformed l := by
  rw [← validateLatex_isValid_false_iff]
  unfold validateLatex
  by_cases h0 : l.isEmpty
  · simp [h0]
  · by_cases h1 : countChar '{' l != countChar '}' l
    · simp [h0, h1]
    · by_cases h2 : testUnclosedCommand l || testDisplayMismatch l || testInlineMismatch l
      · simp [h0, h1, h2]
      · simp [h0, h1, h2]

/-- C3: for every input string, `validateLatex` returns a verdict and never
throws (it is a total function); it reports `isValid = false` exactly on the
malformed inputs — empty string, mismatched braces, unclosed commands,
mismatched math delimiters — and in exactly those cases an error message is
present, so no exception ever escapes to the caller. -/
theorem validateLatex_total_flags_malformed :
    ∀ l : List Char,
      ((validateLatex l).isValid = false ↔ latexMalformed l) ∧
      ((validateLatex l).error.isSome = true ↔ latexMalformed l) :=
  fun l => ⟨validateLatex_isValid_false_iff l, validateLatex_error_isSome_iff l⟩

/-- A video-generation request from `src/front/src/app/datas/Video.ts`:
user text (LaTeX-capable) plus an optional video prompt. -/
structure VideoGenerationRequest where
  text : List Char
  videoPrompt : Option (List Char)
deriving DecidableEq

/-- Result shape of `validateVideoGeneration`. -/
structure VideoValidation where
  isValid : Bool
  errors : List String
deriving DecidableEq

/-- Embedding of `validateVideoGeneration` from
`src/front/src/app/datas/Video.ts` (lines 44–62).  Each failed rule pushes its
message onto the `errors` array; `isValid` is `errors.length === 0`. -/
def validateVideoGeneration (request : VideoGenerationRequest) : VideoValidation :=
  let errors : List String :=
    (if request.text = [] ∨ (trim request.text).length = 0
      then ["テキストは必須です"] else []) ++
    (if request.text ≠ [] ∧ request.text.length < 10
      then ["テキストは10文字以上必要です"] else [])
  { isValid := errors.length == 0, errors := errors }

/-- The `ValidationError` class of `Video.ts` (line 90), carrying the array of
validation error messages. -/
structure ValidationError where
  errors : List String
deriving DecidableEq

/-- Embedding of `validateRequestOrThrow` from
`src/front/src/app/hooks/useTextAnalysis.ts` (lines 79–84): throwing is
modelled as returning `Except.error`. -/
def validateRequestOrThrow (request : VideoGenerationRequest) :
    Except ValidationError Unit :=
  let validation := validateVideoGeneration request
  if validation.isValid then Except.ok () else Except.error ⟨validation.errors⟩

theorem trim_ne_nil_of (l : List Char) (h : trim l ≠ []) : l ≠ [] := by
  intro h0
  subst h0
  exact h rfl

theorem validateVideoGeneration_errors_eq (r : VideoGenerationRequest) :
    (validateVideoGeneration r).errors =
      (if trim r.text = [] then ["テキストは必須です"] else []) ++
      (if r.text ≠ [] ∧ r.text.length < 10
        then ["テキストは10文字以上必要です"] else []) := by
  unfold validateVideoGeneration
  by_cases h1 : r.text = [] ∨ (trim r.text).length = 0
  · have h1' : trim r.text = [] := by
      rcases h1 with h | h
      · simp [h, trim, trimStart, trimEnd]
      · exact List.length_eq_zero.mp h
    simp [h1, h1']
  · push_neg at h1
    have h1' : trim r.text ≠ [] := by
      intro h
      exact h1.2 (by simp [h])
    simp [h1.1, h1.2, h1']

theorem validateVideoGeneration_isValid_eq (r : VideoGenerationRequest) :
    (validateVideoGeneration r).isValid =
      ((validateVideoGeneration r).errors.length == 0) := rfl

/-- C8: the submit-boundary gate.  `validateVideoGeneration` returns
`isValid = true` exactly when its `errors` array is empty, which holds exactly
when the trimmed text is non-empty and the raw text has at least 10
characters; `validateRequestOrThrow` returns normally in exactly that case and
otherwise raises a `ValidationError` carrying those errors. -/
theorem validateVideoGeneration_gate :
    ∀ r : VideoGenerationRequest,
      ((validateVideoGeneration r).isValid = true ↔
        (validateVideoGeneration r).errors = []) ∧
      ((validateVideoGeneration r).errors = [] ↔
        (trim r.text ≠ [] ∧ 10 ≤ r.text.length)) ∧
      ((validateRequestOrThrow r = Except.ok () ∧
          (validateVideoGeneration r).isValid = true) ∨
       (validateRequestOrThrow r =
          Except.error ⟨(validateVideoGeneration r).errors⟩ ∧
          (validateVideoGeneration r).isValid = false)) := by
  intro r
  refine ⟨?_, ?_, ?_⟩
  · rw [validateVideoGeneration_isValid_eq]
    constructor
    · intro h
      exact List.length_eq_zero.mp (by simpa using h)
    · intro h
      simp [h]
  · rw [validateVideoGeneration_errors_eq]
    by_cases h1 : trim r.text = []
    · rw [if_pos h1]
      constructor
      · intro h
        simp at h
      · rintro ⟨ht, _⟩
        exact absurd h1 ht
    · have htextne : r.text ≠ [] := trim_ne_nil_of r.text h1
      by_cases h2 : r.text ≠ [] ∧ r.text.length < 10
      · rw [if_neg h1, if_pos h2]
        constructor
        · intro h
          simp at h
        · rintro ⟨_, hlen⟩
          exact absurd h2.2 (by omega)
      · rw [if_neg h1, if_neg h2]
        constructor
        · intro _
          refine ⟨h1, ?_⟩
          rcases not_and_or.mp h2 with h | h
          · exact absurd htextne (by simpa using h)
          · omega
        · intro _
          simp
  · unfold validateRequestOrThrow
    by_cases h : (validateVideoGeneration r).isValid
    · exact Or.inl ⟨by simp [h], h⟩
    · refine Or.inr ⟨by simp [h], by simpa using h⟩

/-- The intermediate prompt record of `Video.ts` (lines 16–20). -/
structure VideoGenerationPrompt where
  prompt : List Char
  manimCode : Option (List Char)
  originalText : List Char
deriving DecidableEq

/-- Embedding of `createVideoGenerationPrompt` from
`src/front/src/app/hooks/useTextAnalysis.ts` (lines 37–52): the prompt is the
user text plus optional instruction sections joined with blank lines, and
`originalText` is the request text. -/
def createVideoGenerationPrompt (request : VideoGenerationRequest)
    (enhancePrompt : Option (List Char)) : VideoGenerationPrompt :=
  let sections : List (List Char) :=
    [request.text] ++
    (match request.videoPrompt with
     | some vp =>
       if 0 < (trim vp).length then ["【動画への追加指示】\n".toList ++ trim vp] else []
     | none => []) ++
    (match enhancePrompt with
     | some ep =>
       if 0 < (trim ep).length then ["【再生成指示】\n".toList ++ trim ep] else []
     | none => [])
  { prompt := List.intercalate "\n\n".toList sections
    manimCode := none
    originalText := request.text }

/-- C7: the formatting step is a pure, deterministic function — two calls of
`createVideoGenerationPrompt` on the same arguments produce structurally
identical values (the embedding is a function, so this is definitional), and
the result's `originalText` always equals `request.text`. -/
theorem createVideoGenerationPrompt_pure :
    ∀ (request : VideoGenerationRequest) (enhancePrompt : Option (List Char)),
      createVideoGenerationPrompt request enhancePrompt =
        createVideoGenerationPrompt request enhancePrompt ∧
      (createVideoGenerationPrompt request enhancePrompt).originalText =
        request.text :=
  fun _ _ => ⟨rfl, rfl⟩

/-- C4 counterexample: the input `{$$x$` (written with an escaped brace)
contains two distinct violations — mismatched braces and mismatched display
math delimiters — yet the verdict returned by `validateLatex` carries only the
single message for the brace rule, so the verdict does not list every
violation found. -/
theorem validateLatex_first_violation_only :
    countChar '{' "\x7b$$x$".toList ≠ countChar '}' "\x7b$$x$".toList ∧
    testDisplayMismatch "\x7b$$x$".toList = true ∧
    validateLatex "\x7b$$x$".toList =
      { isValid := false, error := some "Mismatched braces in LaTeX" } :=
  ⟨by decide, by decide, by decide⟩

/-- C4 (amended): `validateVideoGeneration` accumulates every failed rule into
its `errors` array (both messages appear when both rules fail), while
`validateLatex` reports only the first violation found: whenever the brace
counts differ, its single error message is the brace message, whatever other
violations the input also contains. -/
theorem validateVideoGeneration_reports_all :
    (∀ r : VideoGenerationRequest,
      (validateVideoGeneration r).errors =
        (if trim r.text = [] then ["テキストは必須です"] else []) ++
        (if r.text ≠ [] ∧ r.text.length < 10
          then ["テキストは10文字以上必要です"] else [])) ∧
    (∀ l : List Char, l ≠ [] → countChar '{' l ≠ countChar '}' l →
      (validateLatex l).error = some "Mismatched braces in LaTeX") := by
  constructor
  · exact validateVideoGeneration_errors_eq
  · intro l hne hcnt
    unfold validateLatex
    have h0 : l.isEmpty = false := by simpa [List.isEmpty_iff] using hne
    have h1 : (countChar '{' l != countChar '}' l) = true := by
      simpa [bne_iff_ne] using hcnt
    simp [h0, h1]

/-- C4 amended-claim witness: a concrete non-empty input with mismatched
braces on which the brace message is the reported error. -/
theorem validateVideoGeneration_reports_all_witness :
    "\x7b".toList ≠ ([] : List Char) ∧
    countChar '{' "\x7b".toList ≠ countChar '}' "\x7b".toList ∧
    (validateLatex "\x7b".toList).error = some "Mismatched braces in LaTeX" :=
  ⟨by decide, by decide,
    validateVideoGeneration_reports_all.2 "\x7b".toList (by decide) (by decide)⟩

/-- Is a character a single or double quote (the regex class of
`/^['"]|['"]$/g` in `fetchVideo.ts`)? -/
def isQuote (c : Char) : Bool := c == '\'' || c == '"'

/-- Embedding of `stripWrappingQuotes` from
`src/front/src/app/services/fetchVideo.ts` (line 1): the global regex removes
at most one leading quote and at most one trailing quote. -/
def stripWrappingQuotes (value : List Char) : List Char :=
  let afterLead :=
    match value with
    | c :: rest => if isQuote c then rest else value
    | [] => []
  match afterLead.reverse with
  | c :: restRev => if isQuote c then restRev.reverse else afterLead
  | [] => afterLead

/-- Embedding of `.replace(/\/$/, '')`: drop one trailing slash. -/
def stripTrailingSlash (l : List Char) : List Char :=
  match l.reverse with
  | '/' :: restRev => restRev.reverse
  | _ => l

/-- Embedding of `resolveBackendUrl` from `fetchVideo.ts` (lines 3–6); unlike
the variant in `useTextAnalysis.ts`, this one returns the empty string rather
than throwing when the environment variable is unset. -/
def resolveBackendUrl (raw : List Char) : List Char :=
  stripTrailingSlash (trim (stripWrappingQuotes raw))

/-- Outcome of the network interaction performed by `fetchVideo`: either the
fetch / blob / object-URL step throws, or a response arrives with an `ok`
flag, a flag saying whether reading the blob throws, and the object URL that
`URL.createObjectURL` would produce on success. -/
inductive FetchOutcome
  | netError
  | response (ok : Bool) (blobFails : Bool) (objectUrl : List Char)
deriving DecidableEq

/-- Environment of one `fetchVideo` call: the raw
`process.env.NEXT_PUBLIC_API_URL` value and the network outcome. -/
structure FetchEnv where
  apiUrlRaw : List Char
  outcome : FetchOutcome
deriving DecidableEq

/-- Embedding of `fetchVideo` from
`src/front/src/app/services/fetchVideo.ts` (lines 8–36).  Every failure path
— empty backend URL, thrown fetch, non-ok response, failing blob read — is
caught and mapped to `none` (the TS function logs and returns `null`); only a
fully successful fetch yields `some` object URL. -/
def fetchVideo (env : FetchEnv) (videoId : List Char) : Option (List Char) :=
  let baseUrl := resolveBackendUrl env.apiUrlRaw
  if baseUrl = [] then none
  else
    match env.outcome with
    | FetchOutcome.netError => none
    | FetchOutcome.response ok blobFails objectUrl =>
      if !ok then none
      else if blobFails then none
      else some objectUrl

/-- C9: `fetchVideo` never propagates an exception — it is a total function
into `Option` — and it returns a non-null object URL exactly when the backend
URL resolves to a non-empty string and the fetch succeeds end to end; in every
other case (empty backend URL, thrown fetch, non-ok response, failing blob
step) it returns null. -/
theorem fetchVideo_never_throws :
    ∀ (env : FetchEnv) (videoId url : List Char),
      (fetchVideo env videoId = some url ↔
        (resolveBackendUrl env.apiUrlRaw ≠ [] ∧
          env.outcome = FetchOutcome.response true false url)) ∧
      ((fetchVideo env videoId).isNone = true ↔
        (resolveBackendUrl env.apiUrlRaw = [] ∨
          ∀ u : List Char, env.outcome ≠ FetchOutcome.response true false u)) := by
  intro env videoId url
  unfold fetchVideo
  by_cases hb : resolveBackendUrl env.apiUrlRaw = []
  · constructor
    · rw [if_pos hb]
      constructor
      · intro h
        simp at h
      · rintro ⟨hne, _⟩
        exact absurd hb hne
    · rw [if_pos hb]
      simp [hb]
  · rw [if_neg hb]
    cases houtcome : env.outcome with
    | netError =>
      constructor
      · simp [hb]
      · simp
    | response ok blobFails objectUrl =>
      cases ok with
      | false => simp [hb]
      | true =>
        cases blobFails with
        | false =>
          constructor
          · simp only [Bool.not_true, Bool.false_eq_true, if_false, if_neg]
            constructor
            · intro h
              refine ⟨hb, ?_⟩
              have : objectUrl = url := by simpa using h
              simp [this]
            · rintro ⟨_, h⟩
              injection h with h1 h2 h3
              simp [h3]
          · simp [hb]
        | true => simp [hb]

/-- A math expression found in markdown content, from
`src/front/src/app/datas/MathExpression.ts` (lines 4–10).  The TS field `end`
is a Lean keyword and is rendered here as `endPos`. -/
structure MathExpression where
  latex : List Char
  start : Nat
  endPos : Nat
  isInline : Bool
  raw : List Char
deriving DecidableEq

/-- Match of the JS regex `\$\$([^$]*?)\$\$` at the head of the list,
returning the match length and the captured group.  The lazy quantifier
`[^$]*?` is exact maximal munch here because the class excludes the
delimiter. -/
def blockMatchAt (l : List Char) : Option (Nat × List Char) :=
  match l with
  | '$' :: '$' :: rest =>
    let inner := rest.takeWhile (· != '$')
    match rest.dropWhile (· != '$') with
    | '$' :: '$' :: _ => some (inner.length + 4, inner)
    | _ => none
  | _ => none

/-- Match of the JS regex `\$([^$\n]*?)\$` at the head of the list. -/
def inlineMatchAt (l : List Char) : Option (Nat × List Char) :=
  match l with
  | '$' :: rest =>
    let inner := rest.takeWhile (fun c => c != '$' && c != '\n')
    match rest.dropWhile (fun c => c != '$' && c != '\n') with
    | '$' :: _ => some (inner.length + 2, inner)
    | _ => none
  | _ => none

/-- The `while ((match = blockMathRegex.exec(content)) !== null)` loop of
`extractMathExpressions`: scan left to right, emit each non-overlapping match
and resume after it.  The `skip` counter implements resuming after a match
while keeping the recursion structural (hence kernel-evaluable). -/
def blockScanGo : List Char → Nat → Nat → List MathExpression
  | [], _, _ => []
  | _ :: rest, skip + 1, i => blockScanGo rest skip (i + 1)
  | c :: rest, 0, i =>
    match blockMatchAt (c :: rest) with
    | some (len, inner) =>
      { latex := trim inner, start := i, endPos := i + len, isInline := false,
        raw := '$' :: '$' :: (inner ++ ['$', '$']) } :: blockScanGo rest (len - 1) (i + 1)
    | none => blockScanGo rest 0 (i + 1)

/-- All block math matches of the content, with absolute positions. -/
def blockScan (content : List Char) : List MathExpression :=
  blockScanGo content 0 0

/-- The inline-math exec loop of `extractMathExpressions`, analogous to
`blockScanGo`. -/
def inlineScanGo : List Char → Nat → Nat → List MathExpression
  | [], _, _ => []
  | _ :: rest, skip + 1, i => inlineScanGo rest skip (i + 1)
  | c :: rest, 0, i =>
    match inlineMatchAt (c :: rest) with
    | some (len, inner) =>
      { latex := trim inner, start := i, endPos := i + len, isInline := true,
        raw := '$' :: (inner ++ ['$']) } :: inlineScanGo rest (len - 1) (i + 1)
    | none => inlineScanGo rest 0 (i + 1)

/-- All inline math matches of the content, with absolute positions. -/
def inlineScan (content : List Char) : List MathExpression :=
  inlineScanGo content 0 0

/-- Comparison used by the final `expressions.sort((a, b) => a.start - b.start)`. -/
def byStart (a b : MathExpression) : Prop := a.start ≤ b.start

instance : DecidableRel byStart := fun a b => Nat.decLe a.start b.start

instance : IsTotal MathExpression byStart := ⟨fun a b => Nat.le_total a.start b.start⟩

instance : IsTrans MathExpression byStart := ⟨fun _ _ _ => Nat.le_trans⟩

/-- Embedding of `extractMathExpressions` from
`src/front/src/app/datas/MathExpression.ts` (lines 47–94): block matches
first, then inline matches that do not lie inside a block range, then a
stable sort by start position. -/
def extractMathExpressions (content : List Char) : List MathExpression :=
  let blocks := blockScan content
  let blockRanges := blocks.map (fun e => (e.start, e.endPos))
  let inlines := (inlineScan content).filter
    (fun e => !(blockRanges.any (fun r => decide (r.1 ≤ e.start ∧ e.endPos ≤ r.2))))
  List.insertionSort byStart (blocks ++ inlines)

theorem blockMatchAt_struct : ∀ {l : List Char} {len : Nat} {inner : List Char},
    blockMatchAt l = some (len, inner) →
    ∃ t, l = ('$' :: '$' :: (inner ++ ['$', '$'])) ++ t ∧ len = inner.length + 4 := by
  intro l len inner h
  unfold blockMatchAt at h
  split at h
  case _ rest =>
    split at h
    case _ t ht =>
      injection h with h'
      injection h' with hlen hinner
      subst hinner
      subst hlen
      refine ⟨t, ?_, rfl⟩
      have hsplit := List.takeWhile_append_dropWhile (p := (· != '$')) (l := rest)
      rw [ht] at hsplit
      conv_lhs => rw [← hsplit]
      simp
    case _ => exact absurd h (by simp)
  case _ => exact absurd h (by simp)

theorem inlineMatchAt_struct : ∀ {l : List Char} {len : Nat} {inner : List Char},
    inlineMatchAt l = some (len, inner) →
    ∃ t, l = ('$' :: (inner ++ ['$'])) ++ t ∧ len = inner.length + 2 := by
  intro l len inner h
  unfold inlineMatchAt at h
  split at h
  case _ rest =>
    split at h
    case _ t ht =>
      injection h with h'
      injection h' with hlen hinner
      subst hinner
      subst hlen
      refine ⟨t, ?_, rfl⟩
      have hsplit := List.takeWhile_append_dropWhile
        (p := (fun c => c != '$' && c != '\n')) (l := rest)
      rw [ht] at hsplit
      conv_lhs => rw [← hsplit]
      simp
    case _ => exact absurd h (by simp)
  case _ => exact absurd h (by simp)

theorem blockScanGo_spec :
    ∀ (l : List Char) (skip i : Nat) (content : List Char),
      content.drop i = l →
      ∀ e ∈ blockScanGo l skip i,
        e.isInline = false ∧ i ≤ e.start ∧
        (content.drop e.start).take (e.endPos - e.start) = e.raw := by
  intro l
  induction l with
  | nil =>
    intro skip i content hc e he
    simp [blockScanGo] at he
  | cons c rest ih =>
    intro skip i content hc e he
    have hdrop : content.drop (i + 1) = rest := by
      have h1 : (content.drop i).drop 1 = rest := by rw [hc]; rfl
      rw [List.drop_drop] at h1
      exact h1
    cases skip with
    | succ k =>
      simp only [blockScanGo] at he
      have h := ih k (i + 1) content hdrop e he
      exact ⟨h.1, by omega, h.2.2⟩
    | zero =>
      rcases hm : blockMatchAt (c :: rest) with _ | ⟨len, inner⟩
      · simp only [blockScanGo, hm] at he
        have h := ih 0 (i + 1) content hdrop e he
        exact ⟨h.1, by omega, h.2.2⟩
      · simp only [blockScanGo, hm, List.mem_cons] at he
        rcases he with he | he
        · subst he
          obtain ⟨t, hl, hlen⟩ := blockMatchAt_struct hm
          refine ⟨rfl, Nat.le_refl i, ?_⟩
          simp only
          rw [hc, hl]
          have hsub : i + len - i = len := by omega
          rw [hsub]
          refine List.take_left' ?_
          simp [hlen]
        · have h := ih (len - 1) (i + 1) content hdrop e he
          exact ⟨h.1, by omega, h.2.2⟩

theorem inlineScanGo_spec :
    ∀ (l : List Char) (skip i : Nat) (content : List Char),
      content.drop i = l →
      ∀ e ∈ inlineScanGo l skip i,
        e.isInline = true ∧ i ≤ e.start ∧
        (content.drop e.start).take (e.endPos - e.start) = e.raw := by
  intro l
  induction l with
  | nil =>
    intro skip i content hc e he
    simp [inlineScanGo] at he
  | cons c rest ih =>
    intro skip i content hc e he
    have hdrop : content.drop (i + 1) = rest := by
      have h1 : (content.drop i).drop 1 = rest := by rw [hc]; rfl
      rw [List.drop_drop] at h1
      exact h1
    cases skip with
    | succ k =>
      simp only [inlineScanGo] at he
      have h := ih k (i + 1) content hdrop e he
      exact ⟨h.1, by omega, h.2.2⟩
    | zero =>
      rcases hm : inlineMatchAt (c :: rest) with _ | ⟨len, inner⟩
      · simp only [inlineScanGo, hm] at he
        have h := ih 0 (i + 1) content hdrop e he
        exact ⟨h.1, by omega, h.2.2⟩
      · simp only [inlineScanGo, hm, List.mem_cons] at he
        rcases he with he | he
        · subst he
          obtain ⟨t, hl, hlen⟩ := inlineMatchAt_struct hm
          refine ⟨rfl, Nat.le_refl i, ?_⟩
          simp only
          rw [hc, hl]
          have hsub : i + len - i = len := by omega
          rw [hsub]
          refine List.take_left' ?_
          simp [hlen]
        · have h := ih (len - 1) (i + 1) content hdrop e he
          exact ⟨h.1, by omega, h.2.2⟩

/-- C10: for every content string, `extractMathExpressions` returns a list
sorted by non-decreasing start position, every returned expression's `raw`
text is exactly the substring of the content between its `start` and `end`
positions, and no inline expression of the result lies entirely within the
range of any block expression of the result (block math takes precedence). -/
theorem extractMathExpressions_spec :
    ∀ content : List Char,
      List.Pairwise byStart (extractMathExpressions content) ∧
      (∀ e ∈ extractMathExpressions content,
        (content.drop e.start).take (e.endPos - e.start) = e.raw) ∧
      (∀ e ∈ extractMathExpressions content,
        ∀ b ∈ extractMathExpressions content,
          e.isInline = true → b.isInline = false →
          ¬(b.start ≤ e.start ∧ e.endPos ≤ b.endPos)) := by
  intro content
  have hperm := List.perm_insertionSort byStart
    ((blockScan content) ++ ((inlineScan content).filter
      (fun e => !(((blockScan content).map (fun e => (e.start, e.endPos))).any
        (fun r => decide (r.1 ≤ e.start ∧ e.endPos ≤ r.2))))))
  have hmem : ∀ e, e ∈ extractMathExpressions content ↔
      e ∈ (blockScan content) ++ ((inlineScan content).filter
        (fun e => !(((blockScan content).map (fun e => (e.start, e.endPos))).any
          (fun r => decide (r.1 ≤ e.start ∧ e.endPos ≤ r.2))))) := by
    intro e
    exact hperm.mem_iff
  refine ⟨?_, ?_, ?_⟩
  · exact List.sorted_insertionSort byStart _
  · intro e he
    rcases List.mem_append.mp ((hmem e).mp he) with h | h
    · exact (blockScanGo_spec content 0 0 content rfl e h).2.2
    · have h' : e ∈ inlineScan content := List.mem_of_mem_filter h
      exact (inlineScanGo_spec content 0 0 content rfl e h').2.2
  · intro e he b hb hei hbi
    rcases List.mem_append.mp ((hmem e).mp he) with h | h
    · have := (blockScanGo_spec content 0 0 content rfl e h).1
      rw [this] at hei
      exact absurd hei (by simp)
    · rcases List.mem_append.mp ((hmem b).mp hb) with hB | hB
      · have hfilter := List.of_mem_filter h
        intro hcontra
        have hrange : (b.start, b.endPos) ∈
            (blockScan content).map (fun e => (e.start, e.endPos)) :=
          List.mem_map.mpr ⟨b, hB, rfl⟩
        have hany : (((blockScan content).map (fun e => (e.start, e.endPos))).any
            (fun r => decide (r.1 ≤ e.start ∧ e.endPos ≤ r.2))) = true := by
          refine List.any_eq_true.mpr ⟨(b.start, b.endPos), hrange, ?_⟩
          exact decide_eq_true hcontra
        rw [hany] at hfilter
        simp at hfilter
      · have := (inlineScanGo_spec content 0 0 content rfl b
          (List.mem_of_mem_filter hB)).1
        rw [this] at hbi
        exact absurd hbi (by simp)

/-- C10 witness: on the concrete content `a $x$ b $$y$$` the extractor returns
the inline expression at positions 2–5 and the block expression at 8–13, and
the theorem's conclusion holds for that pair. -/
theorem extractMathExpressions_spec_witness :
    (⟨"x".toList, 2, 5, true, "$x$".toList⟩ : MathExpression) ∈
      extractMathExpressions "a $x$ b $$y$$".toList ∧
    (⟨"y".toList, 8, 13, false, "$$y$$".toList⟩ : MathExpression) ∈
      extractMathExpressions "a $x$ b $$y$$".toList ∧
    ¬((8 : Nat) ≤ 2 ∧ (5 : Nat) ≤ 13) :=
  ⟨by decide, by decide,
    (extractMathExpressions_spec "a $x$ b $$y$$".toList).2.2
      ⟨"x".toList, 2, 5, true, "$x$".toList⟩ (by decide)
      ⟨"y".toList, 8, 13, false, "$$y$$".toList⟩ (by decide) rfl rfl⟩

/-- Boolean prefix test, the semantics of `String.prototype.startsWith`
specialised to character lists (first argument is the candidate prefix). -/
def startsWithList : List Char → List Char → Bool
  | [], _ => true
  | _ :: _, [] => false
  | p :: ps, c :: cs => p == c && startsWithList ps cs

/-- The characters of the literal `\placeholder`. -/
def bareTok : List Char :=
  ['\\', 'p', 'l', 'a', 'c', 'e', 'h', 'o', 'l', 'd', 'e', 'r']

/-- The characters of the literal `\mathplaceholder`. -/
def mathTok : List Char :=
  ['\\', 'm', 'a', 't', 'h', 'p', 'l', 'a', 'c', 'e', 'h', 'o', 'l', 'd', 'e', 'r']

/-- The JS word-boundary `\b` placed after a word character: it holds at end
of input or before a non-word character. -/
def boundaryOkB : List Char → Bool
  | [] => true
  | c :: _ => !isWordChar c

/-- Match of the common head `\\(?:math)?placeholder` of both placeholder
regexes in `useMathAutocomplete.ts` (lines 6–7); the greedy optional group
tries `math` first, and the two alternatives are mutually exclusive after the
second character. -/
def placeholderHead (l : List Char) : Option Nat :=
  if startsWithList mathTok l then some 16
  else if startsWithList bareTok l then some 12
  else none

/-- Match length of `BARE_PLACEHOLDER_REGEX`, the regex
`\\(?:math)?placeholder\b`, at the head of the list. -/
def bareMatchLen (l : List Char) : Option Nat :=
  match placeholderHead l with
  | some n => if boundaryOkB (l.drop n) then some n else none
  | none => none

/-- Consumed length of the optional group `(?:\[[^\]]*])?` at the head of the
list: zero when no bracket is present, the bracketed span when present and
closed, and failure when an unclosed bracket makes the whole match
impossible (the empty-group fallback would have to match `{` against `[`). -/
def tokenBracketLen : List Char → Option Nat
  | '[' :: t =>
    match t.dropWhile (· != ']') with
    | ']' :: _ => some ((t.takeWhile (· != ']')).length + 2)
    | _ => none
  | _ => some 0

/-- Match length of the mandatory group `\{[^{}]*\}` at the head of the
list. -/
def tokenBraceLen : List Char → Option Nat
  | '{' :: t =>
    match t.dropWhile (fun c => c != '{' && c != '}') with
    | '}' :: _ => some ((t.takeWhile (fun c => c != '{' && c != '}')).length + 2)
    | _ => none
  | _ => none

/-- Match length of `PLACEHOLDER_TOKEN_REGEX`, the regex
`\\(?:math)?placeholder(?:\[[^\]]*])?\{[^{}]*\}`, at the head of the list. -/
def tokenMatchLen (l : List Char) : Option Nat :=
  match placeholderHead l with
  | none => none
  | some n =>
    match tokenBracketLen (l.drop n) with
    | none => none
    | some b =>
      match tokenBraceLen (l.drop (n + b)) with
      | none => none
      | some m => some (n + b + m)

/-- Left-to-right global replacement with the empty string for
`BARE_PLACEHOLDER_REGEX` (the `String.prototype.replace` scan with the `g`
flag): non-overlapping leftmost matches are deleted and scanning resumes
after each match.  The `skip` counter implements resuming while keeping the
recursion structural. -/
def replaceBareGo : List Char → Nat → List Char
  | [], _ => []
  | _ :: rest, skip + 1 => replaceBareGo rest skip
  | c :: rest, 0 =>
    match bareMatchLen (c :: rest) with
    | some n => replaceBareGo rest (n - 1)
    | none => c :: replaceBareGo rest 0

/-- Embedding of `.replace(BARE_PLACEHOLDER_REGEX, '')`. -/
def replaceBare (l : List Char) : List Char := replaceBareGo l 0

/-- Left-to-right global replacement for `PLACEHOLDER_TOKEN_REGEX`. -/
def replaceTokenGo : List Char → Nat → List Char
  | [], _ => []
  | _ :: rest, skip + 1 => replaceTokenGo rest skip
  | c :: rest, 0 =>
    match tokenMatchLen (c :: rest) with
    | some n => replaceTokenGo rest (n - 1)
    | none => c :: replaceTokenGo rest 0

/-- Embedding of `.replace(PLACEHOLDER_TOKEN_REGEX, '')`. -/
def replaceToken (l : List Char) : List Char := replaceTokenGo l 0

/-- Does the list contain an occurrence of `\placeholder` or
`\mathplaceholder` as a token, i.e. followed by a word boundary?  This is the
formalisation of "contains a placeholder token": the source's own regexes
define tokenhood through `\b`. -/
def hasBare : List Char → Bool
  | [] => false
  | c :: rest => (bareMatchLen (c :: rest)).isSome || hasBare rest

/-- Does the list contain two consecutive newline characters (the JS test
`normalized.includes('\n\n')`)? -/
def hasDoubleNewline : List Char → Bool
  | '\n' :: '\n' :: _ => true
  | _ :: rest => hasDoubleNewline rest
  | [] => false

/-- Embedding of the anchored strip `^(?:\d+[\.)]|[-â€¢])\s*` from
`sanitizeContinuation` (line 28).  The source file literally contains the
mojibake characters `â`, `€`, `¢` in the character class (a double-encoded
bullet), so the class is embedded exactly as written. -/
def stripListMarker (l : List Char) : List Char :=
  match l with
  | [] => []
  | c :: rest =>
    if c.isDigit then
      match l.drop (l.takeWhile Char.isDigit).length with
      | d :: t => if d == '.' || d == ')' then t.dropWhile isJsWs else l
      | [] => l
    else if c == '-' || c == 'â' || c == '€' || c == '¢' then rest.dropWhile isJsWs
    else l

/-- Embedding of the anchored case-insensitive strip
`^option\s*\d+\s*[:\-]?\s*` from `sanitizeContinuation` (line 29). -/
def stripOptionMarker (l : List Char) : List Char :=
  if (l.take 6).map Char.toLower = "option".toList then
    if ((l.drop 6).dropWhile isJsWs).takeWhile Char.isDigit = [] then l
    else
      match (((l.drop 6).dropWhile isJsWs).drop
          (((l.drop 6).dropWhile isJsWs).takeWhile Char.isDigit).length).dropWhile isJsWs with
      | c :: t =>
        if c == ':' || c == '-' then t.dropWhile isJsWs
        else ((((l.drop 6).dropWhile isJsWs).drop
          (((l.drop 6).dropWhile isJsWs).takeWhile Char.isDigit).length).dropWhile isJsWs).dropWhile isJsWs
      | [] => []
  else l

/-- Embedding of `.replace(/^\$\{1,2\}/, '')`: greedily drop one or two
leading dollar signs. -/
def stripLeadingDollars : List Char → List Char
  | '$' :: '$' :: t => t
  | '$' :: t => t
  | l => l

/-- Embedding of `.replace(/\$\{1,2\}$/, '')`: greedily drop one or two
trailing dollar signs. -/
def stripTrailingDollars (l : List Char) : List Char :=
  (stripLeadingDollars l.reverse).reverse

/-- Embedding of `sanitizeContinuation` from
`src/front/src/app/hooks/useMathAutocomplete.ts` (lines 22–52), with string
length modelled as character count. -/
def sanitizeContinuation (continuation currentLatex : List Char) : List Char :=
  if continuation = [] then []
  else
    let n1 := trim (continuation.filter (· != '\r'))
    let n2 := stripOptionMarker (stripListMarker n1)
    if n2 = [] then []
    else
      let n4 := trim (stripTrailingDollars (stripLeadingDollars n2))
      let n5 := trim (replaceToken n4)
      let n6 := trim (replaceBare n5)
      let ct := trim currentLatex
      let n7 := if startsWithList ct n6 then trimStart (n6.drop ct.length) else n6
      if hasDoubleNewline n7 || decide (n7.length > 400) then [] else n7

theorem replaceBareGo_eq_drop : ∀ (k : Nat) (l : List Char),
    replaceBareGo l k = replaceBare (l.drop k) := by
  intro k
  induction k with
  | zero => intro l; rfl
  | succ k ih =>
    intro l
    cases l with
    | nil => rfl
    | cons c rest => exact ih rest

theorem replaceBare_cons_none {c : Char} {rest : List Char}
    (h : bareMatchLen (c :: rest) = none) :
    replaceBare (c :: rest) = c :: replaceBare rest := by
  show replaceBareGo (c :: rest) 0 = _
  simp [replaceBareGo, h]
  rfl

theorem replaceBare_cons_some {c : Char} {rest : List Char} {n : Nat}
    (h : bareMatchLen (c :: rest) = some n) :
    replaceBare (c :: rest) = replaceBare (rest.drop (n - 1)) := by
  show replaceBareGo (c :: rest) 0 = _
  rw [show replaceBareGo (c :: rest) 0 = replaceBareGo rest (n - 1) by
    simp [replaceBareGo, h]]
  exact replaceBareGo_eq_drop (n - 1) rest

/-- The tail of `\mathplaceholder` after the backslash. -/
def mathTail : List Char :=
  ['m', 'a', 't', 'h', 'p', 'l', 'a', 'c', 'e', 'h', 'o', 'l', 'd', 'e', 'r']

/-- The tail of `\placeholder` after the backslash. -/
def bareTail : List Char :=
  ['p', 'l', 'a', 'c', 'e', 'h', 'o', 'l', 'd', 'e', 'r']

theorem mathTok_eq : mathTok = '\\' :: mathTail := rfl

theorem bareTok_eq : bareTok = '\\' :: bareTail := rfl

theorem mathTail_word : ∀ c ∈ mathTail, isWordChar c = true := by decide

theorem bareTail_word : ∀ c ∈ bareTail, isWordChar c = true := by decide

theorem startsWithList_iff : ∀ (p l : List Char),
    startsWithList p l = true ↔ ∃ t, l = p ++ t := by
  intro p
  induction p with
  | nil =>
    intro l
    simp [startsWithList]
  | cons a ps ih =>
    intro l
    cases l with
    | nil => simp [startsWithList]
    | cons c cs =>
      simp only [startsWithList, Bool.and_eq_true, beq_iff_eq, ih,
        List.cons_append, List.cons.injEq]
      constructor
      · rintro ⟨rfl, t, rfl⟩
        exact ⟨t, rfl, rfl⟩
      · rintro ⟨t, rfl, rfl⟩
        exact ⟨rfl, t, rfl⟩

theorem bareMatchLen_some_elim {l : List Char} {n : Nat}
    (h : bareMatchLen l = some n) :
    (n = 16 ∧ (∃ t, l = mathTok ++ t) ∧ boundaryOkB (l.drop 16) = true) ∨
    (n = 12 ∧ (∃ t, l = bareTok ++ t) ∧ boundaryOkB (l.drop 12) = true) := by
  unfold bareMatchLen placeholderHead at h
  by_cases h1 : startsWithList mathTok l
  · rw [if_pos h1] at h
    dsimp at h
    by_cases hb : boundaryOkB (l.drop 16)
    · rw [if_pos hb] at h
      injection h with h'
      exact Or.inl ⟨h'.symm, (startsWithList_iff mathTok l).mp h1, hb⟩
    · rw [if_neg hb] at h
      exact absurd h (by simp)
  · rw [if_neg h1] at h
    by_cases h2 : startsWithList bareTok l
    · rw [if_pos h2] at h
      dsimp at h
      by_cases hb : boundaryOkB (l.drop 12)
      · rw [if_pos hb] at h
        injection h with h'
        exact Or.inr ⟨h'.symm, (startsWithList_iff bareTok l).mp h2, hb⟩
      · rw [if_neg hb] at h
        exact absurd h (by simp)
    · rw [if_neg h2] at h
      exact absurd h (by simp)

theorem bareMatchLen_val {l : List Char} {n : Nat}
    (h : bareMatchLen l = some n) : n = 16 ∨ n = 12 := by
  rcases bareMatchLen_some_elim h with ⟨hn, _, _⟩ | ⟨hn, _, _⟩
  · exact Or.inl hn
  · exact Or.inr hn

theorem bareMatchLen_intro_math {l t : List Char}
    (hl : l = mathTok ++ t) (hb : boundaryOkB (l.drop 16) = true) :
    bareMatchLen l = some 16 := by
  have h1 : startsWithList mathTok l = true := (startsWithList_iff mathTok l).mpr ⟨t, hl⟩
  unfold bareMatchLen placeholderHead
  rw [if_pos h1]
  dsimp
  rw [if_pos hb]

theorem bareMatchLen_intro_bare {l t : List Char}
    (hl : l = bareTok ++ t) (hb : boundaryOkB (l.drop 12) = true) :
    bareMatchLen l = some 12 := by
  have h2 : startsWithList bareTok l = true := (startsWithList_iff bareTok l).mpr ⟨t, hl⟩
  have h1 : startsWithList mathTok l = false := by
    by_contra hcon
    have h1' : startsWithList mathTok l = true := by
      cases hx : startsWithList mathTok l
      · exact absurd hx hcon
      · rfl
    obtain ⟨u, hu⟩ := (startsWithList_iff mathTok l).mp h1'
    rw [hl] at hu
    rw [mathTok_eq, bareTok_eq] at hu
    simp [mathTail, bareTail] at hu
  unfold bareMatchLen placeholderHead
  rw [h1]
  dsimp
  rw [if_pos h2]
  dsimp
  rw [if_pos hb]

theorem bareMatchLen_word_head {w : Char} {t : List Char}
    (hw : isWordChar w = true) : bareMatchLen (w :: t) = none := by
  have hne : ('\\' == w) = false := by
    refine beq_eq_false_iff_ne.mpr ?_
    intro h
    rw [← h] at hw
    exact absurd hw (by decide)
  have h1 : startsWithList mathTok (w :: t) = false := by
    rw [mathTok_eq]
    simp [startsWithList, hne]
  have h2 : startsWithList bareTok (w :: t) = false := by
    rw [bareTok_eq]
    simp [startsWithList, hne]
  unfold bareMatchLen placeholderHead
  rw [h1, h2]
  rfl

theorem replaceBare_word_head {w : Char} {t : List Char}
    (hw : isWordChar w = true) :
    replaceBare (w :: t) = w :: replaceBare t :=
  replaceBare_cons_none (bareMatchLen_word_head hw)

theorem drop_cons_of_pos {c : Char} {rest : List Char} {n : Nat} (hn : 0 < n) :
    (c :: rest).drop n = rest.drop (n - 1) := by
  cases n with
  | zero => omega
  | succ m => simp

theorem replaceBare_wordPrefix :
    ∀ (N : Nat) (l : List Char), l.length ≤ N →
      ∀ p : List Char, (∀ c ∈ p, isWordChar c = true) →
      (∃ t, replaceBare l = p ++ t) →
      ∃ u, l = p ++ u ∧ replaceBare l = p ++ replaceBare u := by
  intro N
  induction N with
  | zero =>
    intro l hlen p hp hpre
    have hl : l = [] := List.length_eq_zero.mp (Nat.le_zero.mp hlen)
    subst hl
    obtain ⟨t, ht⟩ := hpre
    have hp0 : p = [] := by
      have : replaceBare [] = [] := rfl
      rw [this] at ht
      exact (List.append_eq_nil.mp ht.symm).1
    subst hp0
    exact ⟨[], rfl, rfl⟩
  | succ N ih =>
    intro l hlen p hp hpre
    cases p with
    | nil => exact ⟨l, rfl, rfl⟩
    | cons w p' =>
      have hw : isWordChar w = true := hp w (List.mem_cons_self w p')
      cases l with
      | nil =>
        obtain ⟨t, ht⟩ := hpre
        have : replaceBare [] = [] := rfl
        rw [this] at ht
        exact absurd ht.symm (by simp)
      | cons c rest =>
        rcases hm : bareMatchLen (c :: rest) with _ | n
        · rw [replaceBare_cons_none hm] at hpre
          obtain ⟨t, ht⟩ := hpre
          rw [List.cons_append] at ht
          injection ht with hcw hrest
          have hlen' : rest.length ≤ N := by
            simp at hlen
            omega
          obtain ⟨u, hu1, hu2⟩ := ih rest hlen' p'
            (fun x hx => hp x (List.mem_cons_of_mem w hx)) ⟨t, hrest⟩
          refine ⟨u, ?_, ?_⟩
          · rw [List.cons_append, ← hu1, hcw]
          · rw [replaceBare_cons_none hm, hu2, hcw, List.cons_append]
        · rw [replaceBare_cons_some hm] at hpre
          have hlen' : (rest.drop (n - 1)).length ≤ N := by
            have h1 : (rest.drop (n - 1)).length ≤ rest.length := by
              simp
            simp at hlen
            omega
          obtain ⟨u, hu1, hu2⟩ := ih (rest.drop (n - 1)) hlen' (w :: p') hp hpre
          exfalso
          have hpos : 0 < n := by
            rcases bareMatchLen_val hm with h | h <;> omega
          have hdropeq : (c :: rest).drop n = rest.drop (n - 1) :=
            drop_cons_of_pos hpos
          rcases bareMatchLen_some_elim hm with ⟨hn, _, hbd⟩ | ⟨hn, _, hbd⟩
          · subst hn
            rw [hdropeq] at hbd
            rw [hu1] at hbd
            simp [boundaryOkB, hw] at hbd
          · subst hn
            rw [hdropeq] at hbd
            rw [hu1] at hbd
            simp [boundaryOkB, hw] at hbd

theorem bareMatchLen_cons_replaceBare {c : Char} {l : List Char}
    (hm : bareMatchLen (c :: l) = none) :
    bareMatchLen (c :: replaceBare l) = none := by
  cases hx : bareMatchLen (c :: replaceBare l) with
  | none => rfl
  | some n =>
    exfalso
    rcases bareMatchLen_some_elim hx with ⟨_, ⟨t, hpre⟩, hbd⟩ | ⟨_, ⟨t, hpre⟩, hbd⟩
    · rw [mathTok_eq, List.cons_append] at hpre
      injection hpre with hcw hrest
      obtain ⟨u, hu1, hu2⟩ := replaceBare_wordPrefix l.length l le_rfl
        mathTail mathTail_word ⟨t, hrest⟩
      have hcl : (c :: l).drop 16 = u := by
        rw [hu1, hcw]
        show (mathTail ++ u).drop 15 = u
        rw [show (15 : Nat) = mathTail.length from rfl]
        exact List.drop_left mathTail u
      have hbl : boundaryOkB ((c :: l).drop 16) = false := by
        cases hb : boundaryOkB ((c :: l).drop 16)
        · rfl
        · exfalso
          have : bareMatchLen (c :: l) = some 16 := by
            refine bareMatchLen_intro_math (t := u) ?_ hb
            rw [hu1, hcw, mathTok_eq, List.cons_append]
          rw [this] at hm
          exact absurd hm (by simp)
      rw [hcl] at hbl
      cases u with
      | nil => simp [boundaryOkB] at hbl
      | cons w u' =>
        have hww : isWordChar w = true := by
          simpa [boundaryOkB] using hbl
        have hrw : replaceBare (w :: u') = w :: replaceBare u' := replaceBare_word_head hww
        rw [hrw] at hu2
        have : (c :: replaceBare l).drop 16 = w :: replaceBare u' := by
          rw [hu2]
          show (mathTail ++ (w :: replaceBare u')).drop 15 = _
          rw [show (15 : Nat) = mathTail.length from rfl]
          exact List.drop_left mathTail _
        rw [this] at hbd
        simp [boundaryOkB, hww] at hbd
    · rw [bareTok_eq, List.cons_append] at hpre
      injection hpre with hcw hrest
      obtain ⟨u, hu1, hu2⟩ := replaceBare_wordPrefix l.length l le_rfl
        bareTail bareTail_word ⟨t, hrest⟩
      have hcl : (c :: l).drop 12 = u := by
        rw [hu1, hcw]
        show (bareTail ++ u).drop 11 = u
        rw [show (11 : Nat) = bareTail.length from rfl]
        exact List.drop_left bareTail u
      have hbl : boundaryOkB ((c :: l).drop 12) = false := by
        cases hb : boundaryOkB ((c :: l).drop 12)
        · rfl
        · exfalso
          have : bareMatchLen (c :: l) = some 12 := by
            refine bareMatchLen_intro_bare (t := u) ?_ hb
            rw [hu1, hcw, bareTok_eq, List.cons_append]
          rw [this] at hm
          exact absurd hm (by simp)
      rw [hcl] at hbl
      cases u with
      | nil => simp [boundaryOkB] at hbl
      | cons w u' =>
        have hww : isWordChar w = true := by
          simpa [boundaryOkB] using hbl
        have hrw : replaceBare (w :: u') = w :: replaceBare u' := replaceBare_word_head hww
        rw [hrw] at hu2
        have : (c :: replaceBare l).drop 12 = w :: replaceBare u' := by
          rw [hu2]
          show (bareTail ++ (w :: replaceBare u')).drop 11 = _
          rw [show (11 : Nat) = bareTail.length from rfl]
          exact List.drop_left bareTail _
        rw [this] at hbd
        simp [boundaryOkB, hww] at hbd

theorem hasBare_replaceBare_aux : ∀ (N : Nat) (l : List Char),
    l.length ≤ N → hasBare (replaceBare l) = false := by
  intro N
  induction N with
  | zero =>
    intro l hlen
    have hl : l = [] := List.length_eq_zero.mp (Nat.le_zero.mp hlen)
    subst hl
    rfl
  | succ N ih =>
    intro l hlen
    cases l with
    | nil => rfl
    | cons c rest =>
      rcases hm : bareMatchLen (c :: rest) with _ | n
      · rw [replaceBare_cons_none hm]
        have hnone := bareMatchLen_cons_replaceBare hm
        have hrest : hasBare (replaceBare rest) = false := by
          refine ih rest ?_
          simp at hlen
          omega
        simp [hasBare, hnone, hrest]
      · rw [replaceBare_cons_some hm]
        refine ih (rest.drop (n - 1)) ?_
        have : (rest.drop (n - 1)).length ≤ rest.length := by simp
        simp at hlen
        omega

theorem hasBare_replaceBare (l : List Char) : hasBare (replaceBare l) = false :=
  hasBare_replaceBare_aux l.length l le_rfl

theorem hasBare_append_right : ∀ {u v : List Char},
    hasBare (u ++ v) = false → hasBare v = false := by
  intro u
  induction u with
  | nil => intro v h; exact h
  | cons a u' ih =>
    intro v h
    rw [List.cons_append] at h
    simp only [hasBare, Bool.or_eq_false_iff] at h
    exact ih h.2

theorem hasBare_drop {l : List Char} (h : hasBare l = false) (k : Nat) :
    hasBare (l.drop k) = false := by
  have hsplit : l.take k ++ l.drop k = l := List.take_append_drop k l
  rw [← hsplit] at h
  exact hasBare_append_right h

theorem hasBare_dropWhile {l : List Char} (p : Char → Bool)
    (h : hasBare l = false) : hasBare (l.dropWhile p) = false := by
  have hsplit : l.takeWhile p ++ l.dropWhile p = l :=
    List.takeWhile_append_dropWhile p l
  rw [← hsplit] at h
  exact hasBare_append_right h

theorem bare_extend {u w : List Char} {n : Nat}
    (hw : ∀ c ∈ w, isWordChar c = false)
    (h : bareMatchLen u = some n) : bareMatchLen (u ++ w) = some n := by
  rcases bareMatchLen_some_elim h with ⟨hn, ⟨t, hl⟩, hbd⟩ | ⟨hn, ⟨t, hl⟩, hbd⟩
  · subst hn
    have hdrop : u.drop 16 = t := by
      rw [hl]
      rw [show (16 : Nat) = mathTok.length from rfl]
      exact List.drop_left mathTok t
    rw [hdrop] at hbd
    have hl' : u ++ w = mathTok ++ (t ++ w) := by
      rw [hl, List.append_assoc]
    refine bareMatchLen_intro_math hl' ?_
    have hdrop' : (u ++ w).drop 16 = t ++ w := by
      rw [hl']
      rw [show (16 : Nat) = mathTok.length from rfl]
      exact List.drop_left mathTok (t ++ w)
    rw [hdrop']
    cases t with
    | nil =>
      cases w with
      | nil => rfl
      | cons d w' =>
        have := hw d (List.mem_cons_self d w')
        simp [boundaryOkB, this]
    | cons d t' =>
      rw [List.cons_append]
      simpa [boundaryOkB] using hbd
  · subst hn
    have hdrop : u.drop 12 = t := by
      rw [hl]
      rw [show (12 : Nat) = bareTok.length from rfl]
      exact List.drop_left bareTok t
    rw [hdrop] at hbd
    have hl' : u ++ w = bareTok ++ (t ++ w) := by
      rw [hl, List.append_assoc]
    refine bareMatchLen_intro_bare hl' ?_
    have hdrop' : (u ++ w).drop 12 = t ++ w := by
      rw [hl']
      rw [show (12 : Nat) = bareTok.length from rfl]
      exact List.drop_left bareTok (t ++ w)
    rw [hdrop']
    cases t with
    | nil =>
      cases w with
      | nil => rfl
      | cons d w' =>
        have := hw d (List.mem_cons_self d w')
        simp [boundaryOkB, this]
    | cons d t' =>
      rw [List.cons_append]
      simpa [boundaryOkB] using hbd

theorem hasBare_extend : ∀ {u w : List Char},
    (∀ c ∈ w, isWordChar c = false) → hasBare u = true →
    hasBare (u ++ w) = true := by
  intro u
  induction u with
  | nil =>
    intro w hw h
    simp [hasBare] at h
  | cons a u' ih =>
    intro w hw h
    simp only [hasBare, Bool.or_eq_true] at h
    rw [List.cons_append]
    rcases h with h | h
    · obtain ⟨n, hn⟩ := Option.isSome_iff_exists.mp h
      have := bare_extend hw hn
      rw [List.cons_append] at this
      simp [hasBare, this]
    · have := ih hw h
      simp [hasBare, this]

theorem trimEnd_decomp (l : List Char) :
    ∃ w, l = trimEnd l ++ w ∧ ∀ c ∈ w, isJsWs c = true := by
  refine ⟨(l.reverse.takeWhile isJsWs).reverse, ?_, ?_⟩
  · have h := List.takeWhile_append_dropWhile (p := isJsWs) (l := l.reverse)
    calc l = l.reverse.reverse := (List.reverse_reverse l).symm
    _ = (l.reverse.takeWhile isJsWs ++ l.reverse.dropWhile isJsWs).reverse := by
        rw [h]
    _ = (l.reverse.dropWhile isJsWs).reverse ++
        (l.reverse.takeWhile isJsWs).reverse := by
        rw [List.reverse_append]
  · intro c hc
    rw [List.mem_reverse] at hc
    exact List.mem_takeWhile_imp hc

theorem not_word_of_ws {c : Char} (h : isJsWs c = true) : isWordChar c = false := by
  simp only [isJsWs, Bool.or_eq_true, beq_iff_eq] at h
  rcases h with ((((((h | h) | h) | h) | h) | h) | h) | h <;> subst h <;> decide

theorem hasBare_trimEnd {l : List Char} (h : hasBare l = false) :
    hasBare (trimEnd l) = false := by
  obtain ⟨w, hw1, hw2⟩ := trimEnd_decomp l
  cases hx : hasBare (trimEnd l) with
  | false => rfl
  | true =>
    exfalso
    have hext := hasBare_extend (fun c hc => not_word_of_ws (hw2 c hc)) hx
    rw [← hw1] at hext
    rw [h] at hext
    exact absurd hext (by simp)

theorem hasBare_trimStart {l : List Char} (h : hasBare l = false) :
    hasBare (trimStart l) = false :=
  hasBare_dropWhile isJsWs h

theorem hasBare_trim {l : List Char} (h : hasBare l = false) :
    hasBare (trim l) = false :=
  hasBare_trimEnd (hasBare_trimStart h)

theorem hasBare_afterBareStage (n5 ct : List Char) :
    hasBare (if startsWithList ct (trim (replaceBare n5))
      then trimStart ((trim (replaceBare n5)).drop ct.length)
      else trim (replaceBare n5)) = false := by
  have h6 : hasBare (trim (replaceBare n5)) = false :=
    hasBare_trim (hasBare_replaceBare n5)
  by_cases hs : startsWithList ct (trim (replaceBare n5)) = true
  · rw [if_pos hs]
    exact hasBare_trimStart (hasBare_drop h6 ct.length)
  · rw [if_neg hs]
    exact h6

/-- C6: arbitrary LLM output is handled without special-case crash handling —
`sanitizeContinuation` is a total function on every pair of strings, and its
result is either the empty string or a string of length at most 400 that
contains no blank line (no two consecutive newlines) and no `\placeholder` or
`\mathplaceholder` token (tokenhood meaning a word boundary follows, exactly
as in the source's own `\b`-based regexes). -/
theorem sanitizeContinuation_safe :
    ∀ continuation currentLatex : List Char,
      sanitizeContinuation continuation currentLatex = [] ∨
      ((sanitizeContinuation continuation currentLatex).length ≤ 400 ∧
        hasDoubleNewline (sanitizeContinuation continuation currentLatex) = false ∧
        hasBare (sanitizeContinuation continuation currentLatex) = false) := by
  intro cont cur
  by_cases h0 : cont = []
  · left
    simp [sanitizeContinuation, h0]
  · by_cases h2 : stripOptionMarker (stripListMarker (trim (cont.filter (· != '\r')))) = []
    · left
      simp only [sanitizeContinuation, if_neg h0]
      rw [if_pos h2]
    · simp only [sanitizeContinuation, if_neg h0]
      rw [if_neg h2]
      set n5 := trim (replaceToken (trim (stripTrailingDollars (stripLeadingDollars
        (stripOptionMarker (stripListMarker (trim (cont.filter (· != '\r'))))))))) with hn5
      set n6 := trim (replaceBare n5) with hn6
      set ct := trim cur with hct
      set n7 := if startsWithList ct n6 = true then trimStart (n6.drop ct.length) else n6
        with hn7
      have h7 : hasBare n7 = false := by
        rw [hn7, hn6]
        exact hasBare_afterBareStage n5 ct
      by_cases hg : (hasDoubleNewline n7 || decide (n7.length > 400)) = true
      · left
        rw [if_pos hg]
      · right
        rw [if_neg hg]
        simp only [Bool.or_eq_true, decide_eq_true_eq, not_or] at hg
        refine ⟨by omega, ?_, h7⟩
        cases hx : hasDoubleNewline n7 with
        | false => rfl
        | true => exact absurd hx hg.1

/-- Modelled from the spec: one entry of a GuardVerdict's ordered violation
sequence (§3); the Guard/Agent backend is not present under the repository's
source tree, so it is modelled from the specification. -/
structure GuardViolation where
  ruleId : String
  location : String
  message : String
deriving DecidableEq

/-- Modelled from the spec: the result of `Guard.vet` (§3, §4.1). -/
structure GuardVerdict where
  passed : Bool
  violations : List GuardViolation
deriving DecidableEq

/-- Modelled from the spec: the Diagnostic taxonomy of §3/§7. -/
inductive DiagnosticKind
  | syntaxError
  | lintWarning
  | runtimeException
  | timeout
  | policyViolation
deriving DecidableEq

/-- Modelled from the spec: one Diagnostic record (§3). -/
structure Diagnostic where
  kind : DiagnosticKind
  message : String
deriving DecidableEq

/-- Modelled from the spec: the result of `Runner.run` (§3, §4.2). -/
structure ExecutionResult where
  exitCode : Int
  stdout : String
  stderr : String
  wallClockMs : Nat
  timedOut : Bool
deriving DecidableEq

/-- Modelled from the spec: one (CandidateScript, GuardVerdict,
ExecutionResult?, Diagnostic[]) tuple of an AgentSession's history (§3). -/
structure AttemptRecord where
  script : String
  verdict : Option GuardVerdict
  execResult : Option ExecutionResult
  diags : List Diagnostic
deriving DecidableEq

/-- Modelled from the spec: the states of the Agent state machine (§4.4). -/
inductive AgentPhase
  | init
  | generating
  | vetting
  | executing
  | diagnosing
  | repairing
  | succeeded
  | exhausted
  | failed
deriving DecidableEq

/-- Modelled from the spec: an AgentSession's mutable part — the phase, the
iteration counter, the current candidate script, the append-only attempt
history, and instrumentation counters for LLM generation calls and Runner
invocations (§3, §4.4). -/
structure AgentState where
  phase : AgentPhase
  iteration : Nat
  current : String
  history : List AttemptRecord
  genCalls : Nat
  runnerCalls : Nat
deriving DecidableEq

/-- Modelled from the spec: the configuration struct passed to the Agent
(§9): the repair bound and the per-attempt execution timeout. -/
structure AgentConfig where
  maxRepairAttempts : Nat
  executionTimeoutMs : Nat
deriving DecidableEq

/-- Replace the last element of a list, if any. -/
def updateLast {α : Type} : List α → (α → α) → List α
  | [], _ => []
  | [r], f => [f r]
  | r :: rest, f => r :: updateLast rest f

/-- Modelled from the spec: a Guard violation becomes a Diagnostic of kind
PolicyViolation (§4.4 Vetting). -/
def violationDiagnostic (v : GuardViolation) : Diagnostic :=
  { kind := DiagnosticKind.policyViolation, message := v.message }

/-- Modelled from the spec: a timed-out run becomes one Timeout Diagnostic
whose detail includes the configured timeout value (§4.5). -/
def timeoutDiagnostic (ms : Nat) : Diagnostic :=
  { kind := DiagnosticKind.timeout, message := toString ms }

/-- Modelled from the spec: a failed run becomes a RuntimeException
Diagnostic carrying the stderr text (§4.5). -/
def runtimeDiagnostic (res : ExecutionResult) : Diagnostic :=
  { kind := DiagnosticKind.runtimeException, message := res.stderr }

/-- Substring test over character lists. -/
def containsList (needle : List Char) : List Char → Bool
  | [] => startsWithList needle []
  | c :: rest => startsWithList needle (c :: rest) || containsList needle rest

/-- Modelled from the spec: the "error markers in stderr" check of the
Diagnosing state (§4.4); the marker set is modelled as the substring
`Error`. -/
def containsErrorMarker (stderr : String) : Bool :=
  containsList "Error".toList stderr.data

/-- Modelled from the spec: the initial AgentState of a session — the
iteration counter starts at 0 for the first Generating state (§4.4). -/
def agentInit : AgentState :=
  { phase := AgentPhase.init, iteration := 0, current := "", history := [],
    genCalls := 0, runnerCalls := 0 }

/-- Modelled from the spec: one transition of the Agent state machine
(§4.4).  The LLM, Guard and Runner are oracles passed as functions.  The
iteration counter increments exactly on entry to Repairing; the Repairing
state compares it against the inclusive bound `maxRepairAttempts`; the
Runner is invoked only from Executing, which is reached only when the
verdict's violation list is empty. -/
def agentStep (cfg : AgentConfig) (llm : Nat → String)
    (guard : String → GuardVerdict) (runner : String → Nat → ExecutionResult)
    (s : AgentState) : AgentState :=
  match s.phase with
  | AgentPhase.init => { s with phase := AgentPhase.generating }
  | AgentPhase.generating =>
    { s with
      phase := AgentPhase.vetting
      current := llm s.genCalls
      genCalls := s.genCalls + 1
      history := s.history ++
        [{ script := llm s.genCalls, verdict := none, execResult := none, diags := [] }] }
  | AgentPhase.vetting =>
    let v := guard s.current
    if v.violations.isEmpty then
      { s with
        phase := AgentPhase.executing
        history := updateLast s.history (fun r => { r with verdict := some v }) }
    else
      { s with
        phase := AgentPhase.repairing
        iteration := s.iteration + 1
        history := updateLast s.history (fun r =>
          { r with
            verdict := some v
            diags := v.violations.map violationDiagnostic }) }
  | AgentPhase.executing =>
    let res := runner s.current cfg.executionTimeoutMs
    { s with
      phase := AgentPhase.diagnosing
      runnerCalls := s.runnerCalls + 1
      history := updateLast s.history (fun r => { r with execResult := some res }) }
  | AgentPhase.diagnosing =>
    match s.history.getLast? with
    | none => { s with phase := AgentPhase.failed }
    | some r =>
      match r.execResult with
      | none => { s with phase := AgentPhase.failed }
      | some res =>
        if res.timedOut then
          { s with
            phase := AgentPhase.repairing
            iteration := s.iteration + 1
            history := updateLast s.history (fun rc =>
              { rc with diags := [timeoutDiagnostic cfg.executionTimeoutMs] }) }
        else if res.exitCode == 0 && !containsErrorMarker res.stderr then
          { s with phase := AgentPhase.succeeded }
        else
          { s with
            phase := AgentPhase.repairing
            iteration := s.iteration + 1
            history := updateLast s.history (fun rc =>
              { rc with diags := [runtimeDiagnostic res] }) }
  | AgentPhase.repairing =>
    if cfg.maxRepairAttempts < s.iteration then
      { s with phase := AgentPhase.exhausted }
    else
      { s with phase := AgentPhase.generating }
  | AgentPhase.succeeded => s
  | AgentPhase.exhausted => s
  | AgentPhase.failed => s

/-- The C1 safety property as a decidable check: every attempt record whose
verdict has violations carries no ExecutionResult. -/
def noExecOnRejected (s : AgentState) : Bool :=
  s.history.all fun r =>
    match r.verdict with
    | some v => v.violations.isEmpty || r.execResult.isNone
    | none => true

/-- The inductive invariant behind C1: the safety check plus the phase-shape
facts needed to push it through a step. -/
def agentInv (s : AgentState) : Bool :=
  noExecOnRejected s &&
  (match s.phase, s.history.getLast? with
   | AgentPhase.vetting, some r => r.execResult.isNone
   | AgentPhase.vetting, none => false
   | AgentPhase.executing, some r =>
     (match r.verdict with
      | some v => v.violations.isEmpty
      | none => false)
   | AgentPhase.executing, none => false
   | _, _ => true)

theorem updateLast_getLast? {α : Type} (h : List α) (f : α → α) :
    (updateLast h f).getLast? = h.getLast?.map f := by
  induction h with
  | nil => rfl
  | cons r t ih =>
    cases t with
    | nil => rfl
    | cons r2 rest =>
      have h1 : updateLast (r :: r2 :: rest) f = r :: updateLast (r2 :: rest) f := rfl
      rw [h1]
      obtain ⟨x, xs, hx⟩ : ∃ x xs, updateLast (r2 :: rest) f = x :: xs := by
        cases rest with
        | nil => exact ⟨f r2, [], rfl⟩
        | cons r3 rest' => exact ⟨r2, updateLast (r3 :: rest') f, rfl⟩
      rw [hx, List.getLast?_cons_cons, ← hx, ih, List.getLast?_cons_cons]

theorem all_getLast? {α : Type} (p : α → Bool) (h : List α)
    (hall : h.all p = true) : ∀ {r : α}, h.getLast? = some r → p r = true := by
  induction h with
  | nil => intro r hr; simp at hr
  | cons a t ih =>
    intro r hr
    rw [List.all_cons, Bool.and_eq_true] at hall
    cases t with
    | nil =>
      simp at hr
      rw [← hr]
      exact hall.1
    | cons a2 t' =>
      rw [List.getLast?_cons_cons] at hr
      exact ih hall.2 hr

theorem updateLast_all {α : Type} (p : α → Bool) (h : List α) (f : α → α)
    (hall : h.all p = true)
    (hf : ∀ r, h.getLast? = some r → p (f r) = true) :
    (updateLast h f).all p = true := by
  induction h with
  | nil => rfl
  | cons a t ih =>
    rw [List.all_cons, Bool.and_eq_true] at hall
    cases t with
    | nil =>
      have := hf a (by simp)
      simp [updateLast, this]
    | cons a2 t' =>
      have h1 : updateLast (a :: a2 :: t') f = a :: updateLast (a2 :: t') f := rfl
      rw [h1, List.all_cons, Bool.and_eq_true]
      refine ⟨hall.1, ih hall.2 ?_⟩
      intro r hr
      exact hf r (by rw [List.getLast?_cons_cons]; exact hr)

/-- The shape half of the C1 invariant. -/
def phaseShape (s : AgentState) : Bool :=
  match s.phase, s.history.getLast? with
  | AgentPhase.vetting, some r => r.execResult.isNone
  | AgentPhase.vetting, none => false
  | AgentPhase.executing, some r =>
    (match r.verdict with
     | some v => v.violations.isEmpty
     | none => false)
  | AgentPhase.executing, none => false
  | _, _ => true

theorem agentInv_eq (s : AgentState) :
    agentInv s = (noExecOnRejected s && phaseShape s) := rfl

/-- The per-record predicate of `noExecOnRejected`. -/
def recOk (r : AttemptRecord) : Bool :=
  match r.verdict with
  | some v => v.violations.isEmpty || r.execResult.isNone
  | none => true

theorem noExecOnRejected_eq (s : AgentState) :
    noExecOnRejected s = s.history.all recOk := rfl

theorem agentInv_step (cfg : AgentConfig) (llm : Nat → String)
    (guard : String → GuardVerdict) (runner : String → Nat → ExecutionResult)
    (s : AgentState) (h : agentInv s = true) :
    agentInv (agentStep cfg llm guard runner s) = true := by
  rw [agentInv_eq, Bool.and_eq_true] at h
  obtain ⟨hno, hshape⟩ := h
  rw [noExecOnRejected_eq] at hno
  cases hp : s.phase with
  | init =>
    simp only [agentStep, hp]
    rw [agentInv_eq, Bool.and_eq_true, noExecOnRejected_eq]
    exact ⟨hno, by simp [phaseShape]⟩
  | generating =>
    simp only [agentStep, hp]
    rw [agentInv_eq, Bool.and_eq_true, noExecOnRejected_eq]
    constructor
    · simp only [List.all_append]
      rw [hno]
      simp [recOk]
    · simp [phaseShape, List.getLast?_concat]
  | vetting =>
    cases hL : s.history.getLast? with
    | none =>
      exfalso
      unfold phaseShape at hshape
      rw [hp, hL] at hshape
      simp at hshape
    | some r =>
      have hr : r.execResult.isNone = true := by
        unfold phaseShape at hshape
        rw [hp, hL] at hshape
        exact hshape
      by_cases hv : (guard s.current).violations.isEmpty
      · simp only [agentStep, hp, hv, if_pos]
        rw [agentInv_eq, Bool.and_eq_true, noExecOnRejected_eq]
        constructor
        · refine updateLast_all recOk s.history _ hno ?_
          intro x _
          simp [recOk, hv]
        · simp only [phaseShape, updateLast_getLast?, hL, Option.map_some']
          simp [hv]
      · simp only [agentStep, hp, hv, if_neg]
        rw [agentInv_eq, Bool.and_eq_true, noExecOnRejected_eq]
        constructor
        · refine updateLast_all recOk s.history _ hno ?_
          intro x hx
          rw [hL] at hx
          injection hx with hx
          subst hx
          simp [recOk, hr]
        · simp [phaseShape]
  | executing =>
    cases hL : s.history.getLast? with
    | none =>
      exfalso
      unfold phaseShape at hshape
      rw [hp, hL] at hshape
      simp at hshape
    | some r =>
      have hr : (match r.verdict with
          | some v => v.violations.isEmpty
          | none => false) = true := by
        unfold phaseShape at hshape
        rw [hp, hL] at hshape
        exact hshape
      simp only [agentStep, hp]
      rw [agentInv_eq, Bool.and_eq_true, noExecOnRejected_eq]
      constructor
      · refine updateLast_all recOk s.history _ hno ?_
        intro x hx
        rw [hL] at hx
        injection hx with hx
        subst hx
        cases hxv : r.verdict with
        | none => rw [hxv] at hr; simp at hr
        | some v =>
          rw [hxv] at hr
          simp only at hr
          simp [recOk, hxv, hr]
      · simp [phaseShape]
  | diagnosing =>
    cases hL : s.history.getLast? with
    | none =>
      simp only [agentStep, hp, hL]
      rw [agentInv_eq, Bool.and_eq_true, noExecOnRejected_eq]
      exact ⟨hno, by simp [phaseShape]⟩
    | some r =>
      cases hE : r.execResult with
      | none =>
        simp only [agentStep, hp, hL, hE]
        rw [agentInv_eq, Bool.and_eq_true, noExecOnRejected_eq]
        exact ⟨hno, by simp [phaseShape]⟩
      | some res =>
        have hdiag : ∀ (g : AttemptRecord → AttemptRecord),
            (∀ x, (g x).verdict = x.verdict ∧ (g x).execResult = x.execResult) →
            (updateLast s.history g).all recOk = true := by
          intro g hg
          refine updateLast_all recOk s.history g hno ?_
          intro x hx
          have hpx : recOk x = true := all_getLast? recOk s.history hno hx
          unfold recOk at hpx ⊢
          rw [(hg x).1, (hg x).2]
          exact hpx
        simp only [agentStep, hp, hL, hE]
        by_cases ht : res.timedOut = true
        · rw [if_pos ht]
          rw [agentInv_eq, Bool.and_eq_true, noExecOnRejected_eq]
          constructor
          · exact hdiag _ (fun x => ⟨rfl, rfl⟩)
          · simp [phaseShape]
        · by_cases hz : (res.exitCode == 0 && !containsErrorMarker res.stderr) = true
          · rw [if_neg ht, if_pos hz]
            rw [agentInv_eq, Bool.and_eq_true, noExecOnRejected_eq]
            exact ⟨hno, by simp [phaseShape]⟩
          · rw [if_neg ht, if_neg hz]
            rw [agentInv_eq, Bool.and_eq_true, noExecOnRejected_eq]
            constructor
            · exact hdiag _ (fun x => ⟨rfl, rfl⟩)
            · simp [phaseShape]
  | repairing =>
    simp only [agentStep, hp]
    by_cases hm : cfg.maxRepairAttempts < s.iteration
    · rw [if_pos hm]
      rw [agentInv_eq, Bool.and_eq_true, noExecOnRejected_eq]
      exact ⟨hno, by simp [phaseShape]⟩
    · rw [if_neg hm]
      rw [agentInv_eq, Bool.and_eq_true, noExecOnRejected_eq]
      exact ⟨hno, by simp [phaseShape]⟩
  | succeeded =>
    simp only [agentStep, hp]
    rw [agentInv_eq, Bool.and_eq_true, noExecOnRejected_eq]
    exact ⟨hno, hshape⟩
  | exhausted =>
    simp only [agentStep, hp]
    rw [agentInv_eq, Bool.and_eq_true, noExecOnRejected_eq]
    exact ⟨hno, hshape⟩
  | failed =>
    simp only [agentStep, hp]
    rw [agentInv_eq, Bool.and_eq_true, noExecOnRejected_eq]
    exact ⟨hno, hshape⟩

theorem agentInv_iterate (cfg : AgentConfig) (llm : Nat → String)
    (guard : String → GuardVerdict) (runner : String → Nat → ExecutionResult) :
    ∀ n, agentInv ((agentStep cfg llm guard runner)^[n] agentInit) = true := by
  intro n
  induction n with
  | zero => rfl
  | succ n ih =>
    rw [Function.iterate_succ_apply']
    exact agentInv_step cfg llm guard runner _ ih

/-- C1: execution is never attempted on a guard-rejected script.  In every
state reachable from the initial AgentSession state, every attempt record
whose GuardVerdict has violations carries no ExecutionResult; and from any
Vetting state whose verdict has violations the machine transitions directly
to Repairing without invoking the Runner (the Runner-invocation counter is
unchanged). -/
theorem agent_never_executes_rejected :
    ∀ (cfg : AgentConfig) (llm : Nat → String) (guard : String → GuardVerdict)
      (runner : String → Nat → ExecutionResult) (n : Nat),
      noExecOnRejected ((agentStep cfg llm guard runner)^[n] agentInit) = true ∧
      (∀ s : AgentState, s.phase = AgentPhase.vetting →
        (guard s.current).violations ≠ [] →
        (agentStep cfg llm guard runner s).phase = AgentPhase.repairing ∧
        (agentStep cfg llm guard runner s).runnerCalls = s.runnerCalls) := by
  intro cfg llm guard runner n
  constructor
  · have h := agentInv_iterate cfg llm guard runner n
    rw [agentInv_eq, Bool.and_eq_true] at h
    exact h.1
  · intro s hs hv
    have hvempty : (guard s.current).violations.isEmpty = false := by
      simpa [List.isEmpty_iff] using hv
    constructor
    · simp [agentStep, hs, hvempty]
    · simp [agentStep, hs, hvempty]

/-- A concrete configuration for the witnesses: one repair allowed. -/
def demoConfig : AgentConfig := { maxRepairAttempts := 1, executionTimeoutMs := 1000 }

/-- A concrete Guard violation. -/
def demoViolation : GuardViolation :=
  { ruleId := "net", location := "1:1", message := "network access" }

/-- A Guard oracle that rejects every script. -/
def demoGuardReject : String → GuardVerdict :=
  fun _ => { passed := false, violations := [demoViolation] }

/-- An LLM oracle returning a fixed script. -/
def demoLlm : Nat → String := fun _ => "script"

/-- A Runner oracle (never reached in the witnesses). -/
def demoRunner : String → Nat → ExecutionResult :=
  fun _ _ => { exitCode := 0, stdout := "", stderr := "", wallClockMs := 1, timedOut := false }

/-- The state after init and one generation: a Vetting state. -/
def demoVetState : AgentState :=
  agentStep demoConfig demoLlm demoGuardReject demoRunner
    (agentStep demoConfig demoLlm demoGuardReject demoRunner agentInit)

/-- C1 witness: on a concrete always-rejecting Guard, the reachable Vetting
state steps straight to Repairing without touching the Runner counter, and
the reachable states satisfy the no-execution-on-rejection check. -/
theorem agent_never_executes_rejected_witness :
    demoVetState.phase = AgentPhase.vetting ∧
    (demoGuardReject demoVetState.current).violations ≠ [] ∧
    (agentStep demoConfig demoLlm demoGuardReject demoRunner demoVetState).phase =
      AgentPhase.repairing ∧
    (agentStep demoConfig demoLlm demoGuardReject demoRunner demoVetState).runnerCalls =
      demoVetState.runnerCalls ∧
    noExecOnRejected
      ((agentStep demoConfig demoLlm demoGuardReject demoRunner)^[3] agentInit) = true :=
  ⟨by decide, by decide,
    ((agent_never_executes_rejected demoConfig demoLlm demoGuardReject demoRunner 3).2
      demoVetState (by decide) (by decide)).1,
    ((agent_never_executes_rejected demoConfig demoLlm demoGuardReject demoRunner 3).2
      demoVetState (by decide) (by decide)).2,
    (agent_never_executes_rejected demoConfig demoLlm demoGuardReject demoRunner 3).1⟩

/-- The phase-indexed counter invariant behind C2's generation-call bound:
it relates the generation counter to the iteration counter in every phase
and bounds the iteration counter by the inclusive repair maximum. -/
def agentCountInv (m : Nat) (s : AgentState) : Prop :=
  match s.phase with
  | AgentPhase.init => s.genCalls = 0 ∧ s.iteration = 0
  | AgentPhase.generating => s.genCalls = s.iteration ∧ s.iteration ≤ m
  | AgentPhase.vetting => s.genCalls = s.iteration + 1 ∧ s.iteration ≤ m
  | AgentPhase.executing => s.genCalls = s.iteration + 1 ∧ s.iteration ≤ m
  | AgentPhase.diagnosing => s.genCalls = s.iteration + 1 ∧ s.iteration ≤ m
  | AgentPhase.repairing => s.genCalls = s.iteration ∧ s.iteration ≤ m + 1
  | _ => s.genCalls ≤ m + 1

theorem agentCountInv_step (cfg : AgentConfig) (llm : Nat → String)
    (guard : String → GuardVerdict) (runner : String → Nat → ExecutionResult)
    (s : AgentState) (h : agentCountInv cfg.maxRepairAttempts s) :
    agentCountInv cfg.maxRepairAttempts (agentStep cfg llm guard runner s) := by
  cases hp : s.phase with
  | init =>
    simp only [agentCountInv, hp] at h
    simp [agentStep, hp, agentCountInv]
    all_goals omega
  | generating =>
    simp only [agentCountInv, hp] at h
    simp [agentStep, hp, agentCountInv]
    all_goals omega
  | vetting =>
    simp only [agentCountInv, hp] at h
    by_cases hv : (guard s.current).violations.isEmpty
    · simp [agentStep, hp, hv, agentCountInv]
      all_goals omega
    · simp [agentStep, hp, hv, agentCountInv]
      all_goals omega
  | executing =>
    simp only [agentCountInv, hp] at h
    simp [agentStep, hp, agentCountInv]
    all_goals omega
  | diagnosing =>
    simp only [agentCountInv, hp] at h
    cases hL : s.history.getLast? with
    | none =>
      simp [agentStep, hp, hL, agentCountInv]
      all_goals omega
    | some r =>
      cases hE : r.execResult with
      | none =>
        simp [agentStep, hp, hL, hE, agentCountInv]
        all_goals omega
      | some res =>
        by_cases ht : res.timedOut = true
        · simp [agentStep, hp, hL, hE, ht, agentCountInv]
          all_goals omega
        · by_cases hz : (res.exitCode == 0 && !containsErrorMarker res.stderr) = true
          · simp [agentStep, hp, hL, hE, ht, hz, agentCountInv]
            all_goals omega
          · simp [agentStep, hp, hL, hE, ht, hz, agentCountInv]
            all_goals omega
  | repairing =>
    simp only [agentCountInv, hp] at h
    by_cases hm : cfg.maxRepairAttempts < s.iteration
    · simp [agentStep, hp, hm, agentCountInv]
      all_goals omega
    · simp [agentStep, hp, hm, agentCountInv]
      all_goals omega
  | succeeded =>
    simp only [agentCountInv, hp] at h
    simp [agentStep, hp, agentCountInv]
    all_goals omega
  | exhausted =>
    simp only [agentCountInv, hp] at h
    simp [agentStep, hp, agentCountInv]
    all_goals omega
  | failed =>
    simp only [agentCountInv, hp] at h
    simp [agentStep, hp, agentCountInv]
    all_goals omega

theorem agentCountInv_iterate (cfg : AgentConfig) (llm : Nat → String)
    (guard : String → GuardVerdict) (runner : String → Nat → ExecutionResult) :
    ∀ n, agentCountInv cfg.maxRepairAttempts
      ((agentStep cfg llm guard runner)^[n] agentInit) := by
  intro n
  induction n with
  | zero =>
    simp only [Function.iterate_zero, id_eq]
    simp [agentCountInv, agentInit]
  | succ n ih =>
    rw [Function.iterate_succ_apply']
    exact agentCountInv_step cfg llm guard runner _ ih

theorem agentGenCalls_le (cfg : AgentConfig) (llm : Nat → String)
    (guard : String → GuardVerdict) (runner : String → Nat → ExecutionResult)
    (n : Nat) :
    ((agentStep cfg llm guard runner)^[n] agentInit).genCalls ≤
      cfg.maxRepairAttempts + 1 := by
  have h := agentCountInv_iterate cfg llm guard runner n
  cases hp : ((agentStep cfg llm guard runner)^[n] agentInit).phase with
  | init => simp only [agentCountInv, hp] at h; omega
  | generating => simp only [agentCountInv, hp] at h; omega
  | vetting => simp only [agentCountInv, hp] at h; omega
  | executing => simp only [agentCountInv, hp] at h; omega
  | diagnosing => simp only [agentCountInv, hp] at h; omega
  | repairing => simp only [agentCountInv, hp] at h; omega
  | succeeded => simp only [agentCountInv, hp] at h; omega
  | exhausted => simp only [agentCountInv, hp] at h; omega
  | failed => simp only [agentCountInv, hp] at h; omega

theorem agentStep_generating (cfg : AgentConfig) (llm : Nat → String)
    (guard : String → GuardVerdict) (runner : String → Nat → ExecutionResult)
    (s : AgentState) (h : s.phase = AgentPhase.generating) :
    agentStep cfg llm guard runner s =
      { s with
        phase := AgentPhase.vetting
        current := llm s.genCalls
        genCalls := s.genCalls + 1
        history := s.history ++
          [{ script := llm s.genCalls, verdict := none, execResult := none, diags := [] }] } := by
  simp [agentStep, h]

theorem agentStep_vetting_reject (cfg : AgentConfig) (llm : Nat → String)
    (guard : String → GuardVerdict) (runner : String → Nat → ExecutionResult)
    (s : AgentState) (h : s.phase = AgentPhase.vetting)
    (hv : (guard s.current).violations ≠ []) :
    agentStep cfg llm guard runner s =
      { s with
        phase := AgentPhase.repairing
        iteration := s.iteration + 1
        history := updateLast s.history (fun r =>
          { r with
            verdict := some (guard s.current)
            diags := (guard s.current).violations.map violationDiagnostic }) } := by
  have hvempty : (guard s.current).violations.isEmpty = false := by
    simpa [List.isEmpty_iff] using hv
  simp [agentStep, h, hvempty]

theorem agentStep_repairing_stop (cfg : AgentConfig) (llm : Nat → String)
    (guard : String → GuardVerdict) (runner : String → Nat → ExecutionResult)
    (s : AgentState) (h : s.phase = AgentPhase.repairing)
    (hm : cfg.maxRepairAttempts < s.iteration) :
    agentStep cfg llm guard runner s = { s with phase := AgentPhase.exhausted } := by
  simp [agentStep, h, hm]

theorem agentStep_repairing_go (cfg : AgentConfig) (llm : Nat → String)
    (guard : String → GuardVerdict) (runner : String → Nat → ExecutionResult)
    (s : AgentState) (h : s.phase = AgentPhase.repairing)
    (hm : ¬cfg.maxRepairAttempts < s.iteration) :
    agentStep cfg llm guard runner s = { s with phase := AgentPhase.generating } := by
  simp [agentStep, h, hm]

/-- The loop invariant of the always-rejected run: at the top of the loop the
machine is Generating, with the iteration and generation counters in lockstep
and the Runner untouched. -/
def genPhaseP (i : Nat) (s : AgentState) : Prop :=
  s.phase = AgentPhase.generating ∧ s.iteration = i ∧ s.genCalls = i ∧
    s.runnerCalls = 0

theorem agentRun_exhausts (cfg : AgentConfig) (llm : Nat → String)
    (guard : String → GuardVerdict) (runner : String → Nat → ExecutionResult)
    (hrej : ∀ k, (guard (llm k)).violations ≠ []) :
    ∀ (d i : Nat) (s : AgentState), i + d = cfg.maxRepairAttempts →
      genPhaseP i s →
      ((agentStep cfg llm guard runner)^[3 * d + 3] s).phase = AgentPhase.exhausted ∧
      ((agentStep cfg llm guard runner)^[3 * d + 3] s).genCalls =
        cfg.maxRepairAttempts + 1 ∧
      ((agentStep cfg llm guard runner)^[3 * d + 3] s).runnerCalls = 0 := by
  intro d
  induction d with
  | zero =>
    intro i s hi hP
    obtain ⟨hph, hit, hgen, hrun⟩ := hP
    have e1 := agentStep_generating cfg llm guard runner s hph
    have h1p : (agentStep cfg llm guard runner s).phase = AgentPhase.vetting := by
      rw [e1]
    have h1c : (agentStep cfg llm guard runner s).current = llm i := by
      rw [e1, hgen]
    have h1i : (agentStep cfg llm guard runner s).iteration = i := by
      rw [e1]
      exact hit
    have h1g : (agentStep cfg llm guard runner s).genCalls = i + 1 := by
      rw [e1]
      simp [hgen]
    have h1r : (agentStep cfg llm guard runner s).runnerCalls = 0 := by
      rw [e1]
      exact hrun
    have e2 := agentStep_vetting_reject cfg llm guard runner
      (agentStep cfg llm guard runner s) h1p (by rw [h1c]; exact hrej i)
    have h2p : (agentStep cfg llm guard runner
        (agentStep cfg llm guard runner s)).phase = AgentPhase.repairing := by
      rw [e2]
    have h2i : (agentStep cfg llm guard runner
        (agentStep cfg llm guard runner s)).iteration = i + 1 := by
      rw [e2]
      simp [h1i]
    have h2g : (agentStep cfg llm guard runner
        (agentStep cfg llm guard runner s)).genCalls = i + 1 := by
      rw [e2]
      simp [h1g]
    have h2r : (agentStep cfg llm guard runner
        (agentStep cfg llm guard runner s)).runnerCalls = 0 := by
      rw [e2]
      simp [h1r]
    have e3 := agentStep_repairing_stop cfg llm guard runner
      (agentStep cfg llm guard runner (agentStep cfg llm guard runner s)) h2p
      (by rw [h2i]; omega)
    have hfinal : (agentStep cfg llm guard runner)^[3 * 0 + 3] s =
        agentStep cfg llm guard runner (agentStep cfg llm guard runner
          (agentStep cfg llm guard runner s)) := rfl
    rw [hfinal, e3]
    refine ⟨by simp, ?_, ?_⟩
    · simp only [AgentState.mk.injEq]
      simp [h2g]
      omega
    · simp [h2r]
  | succ d ih =>
    intro i s hi hP
    obtain ⟨hph, hit, hgen, hrun⟩ := hP
    have e1 := agentStep_generating cfg llm guard runner s hph
    have h1p : (agentStep cfg llm guard runner s).phase = AgentPhase.vetting := by
      rw [e1]
    have h1c : (agentStep cfg llm guard runner s).current = llm i := by
      rw [e1, hgen]
    have h1i : (agentStep cfg llm guard runner s).iteration = i := by
      rw [e1]
      exact hit
    have h1g : (agentStep cfg llm guard runner s).genCalls = i + 1 := by
      rw [e1]
      simp [hgen]
    have h1r : (agentStep cfg llm guard runner s).runnerCalls = 0 := by
      rw [e1]
      exact hrun
    have e2 := agentStep_vetting_reject cfg llm guard runner
      (agentStep cfg llm guard runner s) h1p (by rw [h1c]; exact hrej i)
    have h2p : (agentStep cfg llm guard runner
        (agentStep cfg llm guard runner s)).phase = AgentPhase.repairing := by
      rw [e2]
    have h2i : (agentStep cfg llm guard runner
        (agentStep cfg llm guard runner s)).iteration = i + 1 := by
      rw [e2]
      simp [h1i]
    have h2g : (agentStep cfg llm guard runner
        (agentStep cfg llm guard runner s)).genCalls = i + 1 := by
      rw [e2]
      simp [h1g]
    have h2r : (agentStep cfg llm guard runner
        (agentStep cfg llm guard runner s)).runnerCalls = 0 := by
      rw [e2]
      simp [h1r]
    have e3 := agentStep_repairing_go cfg llm guard runner
      (agentStep cfg llm guard runner (agentStep cfg llm guard runner s)) h2p
      (by rw [h2i]; omega)
    have hP3 : genPhaseP (i + 1) ((agentStep cfg llm guard runner)^[3] s) := by
      have h3 : (agentStep cfg llm guard runner)^[3] s =
          agentStep cfg llm guard runner (agentStep cfg llm guard runner
            (agentStep cfg llm guard runner s)) := rfl
      rw [h3, e3]
      refine ⟨by simp, by simp [h2i], by simp [h2g], by simp [h2r]⟩
    have harith : 3 * (d + 1) + 3 = (3 * d + 3) + 3 := by omega
    rw [harith, Function.iterate_add_apply]
    exact ih (i + 1) ((agentStep cfg llm guard runner)^[3] s) (by omega) hP3

/-- C2: the generate–vet–execute–repair loop terminates within the configured
bound.  The iteration counter starts at 0; a step changes it only by the
increment performed on entry to Repairing; in every reachable state at most
`maxRepairAttempts + 1` generation calls have been made (the bound is
inclusive on repair attempts); and when every generated script is
Guard-rejected, the machine is in the Exhausted terminal state after the run
of `3 * maxRepairAttempts + 4` transitions, having made exactly
`maxRepairAttempts + 1` generation calls and zero Runner invocations. -/
theorem agent_repair_loop_bound :
    ∀ (cfg : AgentConfig) (llm : Nat → String) (guard : String → GuardVerdict)
      (runner : String → Nat → ExecutionResult),
      agentInit.iteration = 0 ∧
      (∀ s : AgentState,
        (agentStep cfg llm guard runner s).iteration = s.iteration ∨
        ((agentStep cfg llm guard runner s).iteration = s.iteration + 1 ∧
          (agentStep cfg llm guard runner s).phase = AgentPhase.repairing)) ∧
      (∀ n : Nat, ((agentStep cfg llm guard runner)^[n] agentInit).genCalls ≤
        cfg.maxRepairAttempts + 1) ∧
      ((∀ k, (guard (llm k)).violations ≠ []) →
        ((agentStep cfg llm guard runner)^[3 * cfg.maxRepairAttempts + 4]
            agentInit).phase = AgentPhase.exhausted ∧
        ((agentStep cfg llm guard runner)^[3 * cfg.maxRepairAttempts + 4]
            agentInit).genCalls = cfg.maxRepairAttempts + 1 ∧
        ((agentStep cfg llm guard runner)^[3 * cfg.maxRepairAttempts + 4]
            agentInit).runnerCalls = 0) := by
  intro cfg llm guard runner
  refine ⟨rfl, ?_, agentGenCalls_le cfg llm guard runner, ?_⟩
  · intro s
    cases hp : s.phase with
    | init => left; simp [agentStep, hp]
    | generating => left; simp [agentStep, hp]
    | vetting =>
      by_cases hv : (guard s.current).violations.isEmpty
      · left; simp [agentStep, hp, hv]
      · right
        constructor
        · simp [agentStep, hp, hv]
        · simp [agentStep, hp, hv]
    | executing => left; simp [agentStep, hp]
    | diagnosing =>
      cases hL : s.history.getLast? with
      | none => left; simp [agentStep, hp, hL]
      | some r =>
        cases hE : r.execResult with
        | none => left; simp [agentStep, hp, hL, hE]
        | some res =>
          by_cases ht : res.timedOut = true
          · right
            constructor
            · simp [agentStep, hp, hL, hE, ht]
            · simp [agentStep, hp, hL, hE, ht]
          · by_cases hz : (res.exitCode == 0 && !containsErrorMarker res.stderr) = true
            · left; simp [agentStep, hp, hL, hE, ht, hz]
            · right
              constructor
              · simp [agentStep, hp, hL, hE, ht, hz]
              · simp [agentStep, hp, hL, hE, ht, hz]
    | repairing =>
      by_cases hm : cfg.maxRepairAttempts < s.iteration
      · left; simp [agentStep, hp, hm]
      · left; simp [agentStep, hp, hm]
    | succeeded => left; simp [agentStep, hp]
    | exhausted => left; simp [agentStep, hp]
    | failed => left; simp [agentStep, hp]
  · intro hrej
    have hstart : agentStep cfg llm guard runner agentInit =
        { agentInit with phase := AgentPhase.generating } := by
      simp [agentStep, agentInit]
    have hP0 : genPhaseP 0 (agentStep cfg llm guard runner agentInit) := by
      rw [hstart]
      exact ⟨rfl, rfl, rfl, rfl⟩
    have harith : 3 * cfg.maxRepairAttempts + 4 =
        (3 * cfg.maxRepairAttempts + 3) + 1 := by omega
    rw [harith, Function.iterate_succ_apply]
    exact agentRun_exhausts cfg llm guard runner hrej cfg.maxRepairAttempts 0
      (agentStep cfg llm guard runner agentInit) (by omega) hP0

/-- C2 witness: with the concrete always-rejecting Guard and
`maxRepairAttempts = 1`, the machine is Exhausted after the full run with
exactly 2 generation calls and no Runner invocation. -/
theorem agent_repair_loop_bound_witness :
    (∀ k, (demoGuardReject (demoLlm k)).violations ≠ []) ∧
    ((agentStep demoConfig demoLlm demoGuardReject demoRunner)^[7]
        agentInit).phase = AgentPhase.exhausted ∧
    ((agentStep demoConfig demoLlm demoGuardReject demoRunner)^[7]
        agentInit).genCalls = 2 ∧
    ((agentStep demoConfig demoLlm demoGuardReject demoRunner)^[7]
        agentInit).runnerCalls = 0 := by
  have h := (agent_repair_loop_bound demoConfig demoLlm demoGuardReject
    demoRunner).2.2.2 (fun k => by simp [demoGuardReject])
  exact ⟨fun k => by simp [demoGuardReject], h.1, h.2.1, h.2.2⟩

/-- Modelled from the spec: one passage of the Retriever's pre-built index
(§4.3) — its text and its embedding vector (the Retriever backend is not
present under the repository's source tree).  Vectors are integer lists; the
similarity is the dot product (§4.3 allows cosine/dot-product). -/
structure Passage where
  text : String
  vec : List Int
deriving DecidableEq

/-- Dot product of two embedding vectors. -/
def dotProduct : List Int → List Int → Int
  | a :: as, b :: bs => a * b + dotProduct as bs
  | _, _ => 0

/-- A passage together with its similarity score against the current query
and its original corpus position. -/
structure ScoredPassage where
  score : Int
  corpusIndex : Nat
  passage : Passage
deriving DecidableEq

/-- Modelled from the spec: similarity of the query embedding against all
indexed vectors (§4.3). -/
def scoreAll (queryVec : List Int) (corpus : List Passage) : List ScoredPassage :=
  corpus.enum.map (fun ip =>
    { score := dotProduct queryVec ip.2.vec, corpusIndex := ip.1, passage := ip.2 })

/-- Modelled from the spec: the ranking order — higher similarity first, ties
broken by original corpus order (§4.3). -/
def rankOrder (a b : ScoredPassage) : Prop :=
  b.score < a.score ∨ (a.score = b.score ∧ a.corpusIndex ≤ b.corpusIndex)

instance : DecidableRel rankOrder := fun a b => by
  unfold rankOrder
  infer_instance

instance : IsTotal ScoredPassage rankOrder := by
  refine ⟨fun a b => ?_⟩
  rcases lt_trichotomy b.score a.score with h | h | h
  · exact Or.inl (Or.inl h)
  · rcases Nat.le_total a.corpusIndex b.corpusIndex with hi | hi
    · exact Or.inl (Or.inr ⟨h.symm, hi⟩)
    · exact Or.inr (Or.inr ⟨h, hi⟩)
  · exact Or.inr (Or.inl h)

instance : IsTrans ScoredPassage rankOrder := by
  refine ⟨fun a b c hab hbc => ?_⟩
  rcases hab with h1 | ⟨h1, h1'⟩ <;> rcases hbc with h2 | ⟨h2, h2'⟩
  · exact Or.inl (by omega)
  · exact Or.inl (by omega)
  · exact Or.inl (by omega)
  · exact Or.inr ⟨by omega, by omega⟩

/-- Modelled from the spec: all passages sorted by the ranking order. -/
def rankPassages (queryVec : List Int) (corpus : List Passage) :
    List ScoredPassage :=
  List.insertionSort rankOrder (scoreAll queryVec corpus)

/-- Modelled from the spec: `retrieve(query, k)` (§4.3) — embed the query
with the same embedding function used for the index, rank all passages by
similarity with ties broken by corpus order, and return the top `k`. -/
def retrieve (embed : String → List Int) (corpus : List Passage) (q : String)
    (k : Nat) : List Passage :=
  ((rankPassages (embed q) corpus).take k).map (fun sp => sp.passage)

/-- C5: `retrieve(q, k)` returns at most `k` passages; the returned sequence
is the projection of the top-`k` ranked list, which is ordered by
non-increasing similarity score with ties broken by original corpus order;
and repeated identical calls against an unchanged index return the same
sequence (the embedding is a pure function, so determinism is
definitional). -/
theorem retrieve_spec :
    ∀ (embed : String → List Int) (corpus : List Passage) (q : String) (k : Nat),
      (retrieve embed corpus q k).length ≤ k ∧
      retrieve embed corpus q k =
        ((rankPassages (embed q) corpus).take k).map (fun sp => sp.passage) ∧
      List.Pairwise (fun a b => b.score ≤ a.score ∧
          (a.score = b.score → a.corpusIndex ≤ b.corpusIndex))
        ((rankPassages (embed q) corpus).take k) ∧
      retrieve embed corpus q k = retrieve embed corpus q k := by
  intro embed corpus q k
  refine ⟨?_, rfl, ?_, rfl⟩
  · simp only [retrieve, List.length_map, List.length_take]
    omega
  · have hs : List.Sorted rankOrder (rankPassages (embed q) corpus) :=
      List.sorted_insertionSort rankOrder _
    have hst : List.Pairwise rankOrder ((rankPassages (embed q) corpus).take k) :=
      List.Pairwise.sublist (List.take_sublist k _) hs
    refine hst.imp ?_
    intro a b hab
    rcases hab with h | ⟨h1, h2⟩
    · exact ⟨le_of_lt h, fun he => absurd he (by omega)⟩
    · exact ⟨le_of_eq h1.symm, fun _ => h2⟩
